import Mathlib

/-!
Shallow embedding of the LumeVisual `lume-adaptrix` mesh-preprocessing
pipeline (the `src/lume-adaptrix/src/processor/` files: `builder.rs`,
`partitioner.rs`, `simplifier.rs`, `types.rs`, `mod.rs`).

Modelling conventions:
* `f32` values are modelled as exact rationals (`ℚ`); the sentinel `1e10`
  used by the code for "+∞ parent error" is the rational `10^10`, and the
  patch guard `>= 1e9` is `10^9 ≤ _`.
* `u32`/`usize`/`u8` values are modelled as `ℕ`; masking such as
  `counts & 0xFF` is `% 256`, and `x | (y << 8)` with disjoint bit ranges
  is `x + 256 * y`.
* The external `meshopt` library calls (`build_meshlets`, `simplify`,
  `simplify_sloppy`) and the `f32` square root used by `glam` are
  uninterpreted parameters gathered in the `Oracles` structure, matching
  the spec's treatment of them as black-box external contracts.
* `rayon`'s nondeterministic order in which per-group results are merged
  (`groups.into_par_iter().for_each` pushing into a `Mutex`) is modelled
  by the `sched` oracle, which reorders the group list per level.
* Rust `Vec` indexing that would panic out of bounds is modelled with
  `List.getD` (default element); all theorems below are stated under
  hypotheses that keep the relevant accesses in bounds, or at concrete
  inputs where they are in bounds.
-/

set_option maxRecDepth 1000000

attribute [local semireducible] Rat.add Rat.mul Rat.inv Rat.sub

namespace Adaptrix

/-- Rational 3-vector (models `glam::Vec3` / `[f32; 3]`). -/
structure Q3 where
  x : ℚ
  y : ℚ
  z : ℚ
  deriving DecidableEq, Repr, Inhabited

/-- Vertex record (`AdaptrixVertex` in `lib.rs`): position, normal, uv. -/
structure AVertex where
  position : Q3
  normal : Q3
  uv : ℚ × ℚ
  deriving DecidableEq, Repr, Inhabited

/-- Cluster record as constructed by `builder.rs` `push_cluster_thread_safe`:
center/radius bounding sphere, offsets into the two flat index arrays, the
packed `counts` word, and the two error fields. -/
structure ClusterPacked where
  center_radius : Q3 × ℚ
  vertex_offset : ℕ
  triangle_offset : ℕ
  counts : ℕ
  lod_error : ℚ
  parent_error : ℚ
  deriving DecidableEq, Repr, Inhabited

/-- The three append-only global arrays guarded by mutexes in `NaniteBuilder`
(the builder's `vertices` array is immutable and passed separately). -/
structure BState where
  clusters : List ClusterPacked
  v_indices : List ℕ
  p_indices : List ℕ
  deriving DecidableEq, Repr, Inhabited

/-- A meshlet as returned by the external `meshopt::build_meshlets`:
a local vertex table, a triangle count, and the flat `u8` triangle-corner
byte stream (of which the first `triangle_count * 3` bytes are used). -/
structure Meshlet where
  vertices : List ℕ
  triangle_count : ℕ
  indicesFlat : List ℕ
  deriving DecidableEq, Repr, Inhabited

/-- Result record of `simplifier.rs` `simplify_group`. -/
structure SimplifiedMesh where
  vertices : List AVertex
  indices : List ℕ
  error : ℚ
  deriving DecidableEq, Repr, Inhabited

/-- External black boxes: the meshlet builder and simplifier library calls
(contracts in spec section 6), the `f32` square root used for bounding
spheres, and the nondeterministic order in which `rayon` completes the
per-group tasks of a level (`sched level groups` is the merge order). -/
structure Oracles where
  build_meshlets : List ℕ → ℕ → ℕ → ℕ → List Meshlet
  meshopt_simplify : List ℕ → List ℚ → ℕ → ℚ → List ℕ
  meshopt_simplify_sloppy : List ℕ → List ℚ → ℕ → List ℕ
  sqrtq : ℚ → ℚ
  sched : ℕ → List (List ℕ) → List (List ℕ)

/-- Rust float-to-int cast (`as i32`) truncates toward zero; on a reduced
fraction this is the numerator t-divided by the denominator. -/
def truncQ (q : ℚ) : ℤ := q.num.tdiv q.den

/-- The `1e10` sentinel the builder stores as "+∞" `parent_error`. -/
def f32_1e10 : ℚ := 10000000000

/-- The `1e9` threshold of the patch guard `parent_error >= 1e9`. -/
def f32_1e9 : ℚ := 1000000000

/-- The `while p_indices.len() % 4 != 0 { p_indices.push(0) }` loop in
`push_cluster_thread_safe`: append zero bytes until the length is a
multiple of 4. -/
def padTo4 (l : List ℕ) : List ℕ := l ++ List.replicate ((4 - l.length % 4) % 4) 0

/-- `builder.rs` `push_cluster_thread_safe`: record the tail offsets, extend
the two flat arrays, pad the primitive array to a 4-byte boundary, compute
the centroid bounding sphere (guarding the division by `local_verts.len()`
behind an emptiness check), and append the new cluster, returning its
global index. -/
def push_cluster_thread_safe (O : Oracles) (vertices : List AVertex) (s : BState)
    (local_verts : List ℕ) (local_tris : List ℕ) (lod_error parent_error : ℚ) :
    BState × ℕ :=
  let v_offset := s.v_indices.length
  let t_offset := s.p_indices.length
  let v_indices := s.v_indices ++ local_verts
  let p_indices := padTo4 (s.p_indices ++ local_tris)
  let csum : Q3 := local_verts.foldl
    (fun c v_idx =>
      let p := (vertices.getD v_idx default).position
      ⟨c.x + p.x, c.y + p.y, c.z + p.z⟩) ⟨0, 0, 0⟩
  let center : Q3 :=
    if local_verts.isEmpty then ⟨0, 0, 0⟩
    else ⟨csum.x / local_verts.length, csum.y / local_verts.length,
      csum.z / local_verts.length⟩
  let radius : ℚ := local_verts.foldl
    (fun r v_idx =>
      let p := (vertices.getD v_idx default).position
      max r (O.sqrtq ((center.x - p.x) ^ 2 + (center.y - p.y) ^ 2 +
        (center.z - p.z) ^ 2))) 0
  let counts := local_verts.length % 256 + 256 * (local_tris.length / 3 % 256)
  let cluster : ClusterPacked :=
    { center_radius := (center, radius)
      vertex_offset := v_offset
      triangle_offset := t_offset
      counts := counts
      lod_error := lod_error
      parent_error := parent_error }
  ({ clusters := s.clusters ++ [cluster], v_indices := v_indices,
     p_indices := p_indices }, s.clusters.length)

/-- `builder.rs` `generate_level0`: call the meshlet builder on the input
index buffer and push one level-0 cluster per meshlet with
`lod_error = 0.0` and `parent_error = 1e10`. -/
def generate_level0 (O : Oracles) (vertices : List AVertex) (s : BState)
    (indices : List ℕ) : BState × List ℕ :=
  let meshlets := O.build_meshlets indices vertices.length 64 124
  meshlets.foldl
    (fun (acc : BState × List ℕ) m =>
      let actual_indices := m.indicesFlat.take (m.triangle_count * 3)
      let r := push_cluster_thread_safe O vertices acc.1 m.vertices actual_indices
        0 f32_1e10
      (r.1, acc.2 ++ [r.2])) (s, [])

/-- `simplifier.rs` `simplify_group`: run the library simplifier; if it keeps
more than 80 percent of the input indices, fall back to the sloppy
simplifier; then estimate the error from the reduction ratio.
The Rust threshold `(indices.len() as f32 * 0.8) as usize` is the truncated
product, i.e. `4 * indices.length / 5` in `ℕ`. -/
def simplify_group (O : Oracles) (vertices : List AVertex) (indices : List ℕ)
    (target_count : ℕ) (error_threshold : ℚ) (_locked_vertices : List Bool) :
    SimplifiedMesh :=
  let positions : List ℚ :=
    vertices.foldr (fun v acc => v.position.x :: v.position.y :: v.position.z :: acc) []
  let simplified0 := O.meshopt_simplify indices positions target_count error_threshold
  let simplified_indices :=
    if simplified0.length > 4 * indices.length / 5 then
      O.meshopt_simplify_sloppy indices positions target_count
    else simplified0
  let error : ℚ :=
    if indices.length > 0 then
      let ratio : ℚ := (simplified_indices.length : ℚ) / (indices.length : ℚ)
      max (1 - ratio) 0 * error_threshold + (if ratio > 4 / 5 then 1 / 10 else 0)
    else 0
  { vertices := vertices, indices := simplified_indices, error := error }

/-- Group-local welding state of the `build_next_level` loop: the quantized
position key map (a `HashMap` in the source, an association list here),
the dense group-local vertex table, the group-local-to-global index map,
and the group-local index buffer. -/
structure WeldState where
  vmap : List ((ℤ × ℤ × ℤ) × ℕ)
  group_vertices : List AVertex
  group_to_global_map : List ℕ
  group_indices : List ℕ
  deriving Repr, Inhabited

/-- Quantized weld key: position scaled by 1000, truncated `as i32`. -/
def weldKey (v : AVertex) : ℤ × ℤ × ℤ :=
  (truncQ (v.position.x * 1000), truncQ (v.position.y * 1000),
   truncQ (v.position.z * 1000))

/-- One triangle corner of the welding loop: resolve the global vertex,
quantize, and either reuse the mapped group-local index or append a new
group-local vertex. -/
def weldCorner (vertices : List AVertex) (st : WeldState) (global_v_idx : ℕ) :
    WeldState :=
  let v := vertices.getD global_v_idx default
  let key := weldKey v
  match st.vmap.lookup key with
  | some idx => { st with group_indices := st.group_indices ++ [idx] }
  | none =>
    let idx := st.group_vertices.length
    { vmap := st.vmap ++ [(key, idx)]
      group_vertices := st.group_vertices ++ [v]
      group_to_global_map := st.group_to_global_map ++ [global_v_idx]
      group_indices := st.group_indices ++ [idx] }

/-- Welding loop body for one child cluster: iterate its
`triangle_count * 3` corner bytes, resolving each through the primitive
and vertex index arrays. -/
def weldCluster (vertices : List AVertex) (s : BState) (st : WeldState)
    (c_idx : ℕ) : WeldState :=
  let cluster := s.clusters.getD c_idx default
  let v_start := cluster.vertex_offset
  let t_start := cluster.triangle_offset
  let triangle_count := cluster.counts / 256 % 256
  (List.range (triangle_count * 3)).foldl
    (fun st i =>
      let local_v_idx := s.p_indices.getD (t_start + i) 0
      let global_v_idx := s.v_indices.getD (v_start + local_v_idx) 0
      weldCorner vertices st global_v_idx) st

/-- Welding of a whole group (first phase of the per-group task in
`build_next_level`). -/
def weld_group (vertices : List AVertex) (s : BState) (group : List ℕ) :
    WeldState :=
  group.foldl (weldCluster vertices s) ⟨[], [], [], []⟩

/-- Maximum child `lod_error` of a group, computed as in the source by a
fold starting from `0.0f32`. -/
def group_max_child_error (s : BState) (group : List ℕ) : ℚ :=
  group.foldl (fun m c_idx => max m (s.clusters.getD c_idx default).lod_error) 0

/-- Per-level simplifier error threshold `0.01 * 2f32.powi(level)`. -/
def level_error_threshold (level : ℕ) : ℚ := 1 / 100 * 2 ^ level

/-- Target triangle count `max(1, (tris * reduction_ratio) as usize)` with
reduction ratio 0.5 below level 3 and 0.25 from level 3 on. -/
def group_target_tris (level : ℕ) (group_indices : List ℕ) : ℕ :=
  let reduction_ratio : ℚ := if level < 3 then 1 / 2 else 1 / 4
  max ((truncQ ((group_indices.length / 3 : ℕ) * reduction_ratio)).toNat) 1

/-- The simplified mesh computed for one group inside `build_next_level`
(weld, then `simplify_group` with the level-dependent target and
threshold and an all-false locked-vertex vector). -/
def group_simplified (O : Oracles) (vertices : List AVertex) (s : BState)
    (group : List ℕ) (level : ℕ) : SimplifiedMesh :=
  let w := weld_group vertices s group
  simplify_group O w.group_vertices w.group_indices
    (group_target_tris level w.group_indices) (level_error_threshold level)
    (List.replicate w.group_vertices.length false)

/-- The `current_lod_error` a group assigns to its new parent clusters:
`max_child_error + simplified.error + 0.001`. -/
def group_parent_error (O : Oracles) (vertices : List AVertex) (s : BState)
    (group : List ℕ) (level : ℕ) : ℚ :=
  group_max_child_error s group + (group_simplified O vertices s group level).error
    + 1 / 1000

/-- The meshlets obtained by re-running the meshlet builder on the group's
simplified geometry. -/
def group_next_meshlets (O : Oracles) (vertices : List AVertex) (s : BState)
    (group : List ℕ) (level : ℕ) : List Meshlet :=
  O.build_meshlets (group_simplified O vertices s group level).indices
    (weld_group vertices s group).group_vertices.length 64 124

/-- The child patch loop run after each parent push: for every child of the
group whose `parent_error` is still at least `1e9` (the +∞ sentinel),
overwrite it with the group's `current_lod_error`. -/
def patch_children (clusters : List ClusterPacked) (group : List ℕ) (e : ℚ) :
    List ClusterPacked :=
  group.foldl
    (fun cl child_idx =>
      if f32_1e9 ≤ (cl.getD child_idx default).parent_error then
        cl.set child_idx { cl.getD child_idx default with parent_error := e }
      else cl) clusters

/-- One iteration of the `for m in next_meshlets.iter()` loop of the
per-group task: map the meshlet's group-local vertices back to global
vertex indices through `group_to_global_map`, push the new parent cluster
with `lod_error = current_lod_error` and `parent_error = 1e10`, then run
the child patch loop. -/
def push_parent_step (O : Oracles) (vertices : List AVertex) (group : List ℕ)
    (current_lod_error : ℚ) (g2g : List ℕ) (acc : BState × List ℕ) (m : Meshlet) :
    BState × List ℕ :=
  let parent_v_indices := m.vertices.map (fun lv => g2g.getD lv 0)
  let actual_tris := m.indicesFlat.take (m.triangle_count * 3)
  let pushed := push_cluster_thread_safe O vertices acc.1 parent_v_indices
    actual_tris current_lod_error f32_1e10
  ({ pushed.1 with
     clusters := patch_children pushed.1.clusters group current_lod_error },
   acc.2 ++ [pushed.2])

/-- The per-group task body of `build_next_level` (the closure passed to
`into_par_iter().for_each`): weld, simplify, recluster, push one parent
cluster per new meshlet, patching the children after each push. Returns
the updated global state and the group's `local_next_indices`. -/
def process_group (O : Oracles) (vertices : List AVertex) (s : BState)
    (group : List ℕ) (level : ℕ) : BState × List ℕ :=
  (group_next_meshlets O vertices s group level).foldl
    (push_parent_step O vertices group (group_parent_error O vertices s group level)
      (weld_group vertices s group).group_to_global_map) (s, [])

/-- Proof scaffold: the invariant maintained by `push_parent_step` over the
meshlet loop of one group, relative to the pre-group state `s` and the
group's parent error `e`: the store only grows, every child's
`parent_error` is either still the sentinel or already `e`, and every
collected new index holds a cluster with `lod_error = e` and sentinel
`parent_error`, sitting at or above the old store tail. -/
def groupStepInv (s : BState) (group : List ℕ) (e : ℚ) (acc : BState × List ℕ) :
    Prop :=
  s.clusters.length ≤ acc.1.clusters.length ∧
  (∀ c ∈ group,
    (acc.1.clusters.getD c default).parent_error = f32_1e10 ∨
    (acc.1.clusters.getD c default).parent_error = e) ∧
  (∀ i ∈ acc.2, s.clusters.length ≤ i ∧ i < acc.1.clusters.length ∧
    (acc.1.clusters.getD i default).lod_error = e ∧
    (acc.1.clusters.getD i default).parent_error = f32_1e10)

/-! ## partitioner.rs -/

/-- Step 1 of `build_adjacency`: emit one `(vertex_id, cluster_id)` pair for
every vertex of every cluster of the level, reading each cluster's
`(vertex_offset, vertex_count)` from `cluster_vertex_offsets`. -/
def adjacency_entries (cluster_indices : List ℕ) (meshlet_vertex_indices : List ℕ)
    (cluster_vertex_offsets : List (ℕ × ℕ)) : List (ℕ × ℕ) :=
  cluster_indices.foldr
    (fun g acc =>
      let oc := cluster_vertex_offsets.getD g (0, 0)
      ((List.range oc.2).map
        (fun i => (meshlet_vertex_indices.getD (oc.1 + i) 0, g))) ++ acc) []

/-- Order used by `entries.sort_unstable_by_key(|e| e.0)`: compare the
vertex id only. -/
def entryLE (a b : ℕ × ℕ) : Prop := a.1 ≤ b.1

instance : DecidableRel entryLE := fun a b => inferInstanceAs (Decidable (a.1 ≤ b.1))

/-- Lexicographic order used by `raw_adj.sort_unstable()` on pairs. -/
def edgeLE (a b : ℕ × ℕ) : Prop := a.1 < b.1 ∨ (a.1 = b.1 ∧ a.2 ≤ b.2)

instance : DecidableRel edgeLE := fun a b =>
  inferInstanceAs (Decidable (a.1 < b.1 ∨ (a.1 = b.1 ∧ a.2 ≤ b.2)))

/-- Step 3 of `build_adjacency`: within each run of entries sharing a vertex
id, emit one canonical `(min, max)` edge per pair of consecutive entries
with distinct clusters. The source iterates runs (`while i < entries.len()`
with an inner `for k in i..(j-1)`); pairing every element with its
successor and keeping the same-vertex pairs visits exactly the same
consecutive pairs in the same order. -/
def consecutive_edges : List (ℕ × ℕ) → List (ℕ × ℕ)
  | [] => []
  | [_] => []
  | a :: b :: t =>
    (if a.1 = b.1 ∧ a.2 ≠ b.2 then [(min a.2 b.2, max a.2 b.2)] else []) ++
      consecutive_edges (b :: t)

/-- `Vec::dedup`: remove consecutive duplicates. -/
def dedup_consecutive : List (ℕ × ℕ) → List (ℕ × ℕ)
  | [] => []
  | [a] => [a]
  | a :: b :: t =>
    if a = b then dedup_consecutive (b :: t) else a :: dedup_consecutive (b :: t)

/-- Increment slot `i` of an array modelled as a function. -/
def bumpAt (f : ℕ → ℕ) (i : ℕ) : ℕ → ℕ := Function.update f i (f i + 1)

/-- Degree counting pass: `offsets[c1 + 1] += 1; offsets[c2 + 1] += 1` for
every edge, starting from the all-zero array. -/
def degree_array (raw_adj : List (ℕ × ℕ)) : ℕ → ℕ :=
  raw_adj.foldl (fun f e => bumpAt (bumpAt f (e.1 + 1)) (e.2 + 1)) (fun _ => 0)

/-- The in-place running-sum loop `for i in 0..num_clusters { offsets[i+1] +=
offsets[i] }`, indexed by how many iterations have run. -/
def offsets_loop (f : ℕ → ℕ) : ℕ → (ℕ → ℕ)
  | 0 => f
  | i + 1 =>
    let g := offsets_loop f i
    Function.update g (i + 1) (g (i + 1) + g i)

/-- The CSR offsets array of `build_adjacency`. -/
def csr_offsets (num_clusters : ℕ) (raw_adj : List (ℕ × ℕ)) : ℕ → ℕ :=
  offsets_loop (degree_array raw_adj) num_clusters

/-- One edge of the CSR fill loop: write each endpoint into the other
endpoint's segment at its running cursor, then advance both cursors.
The state is `(current_offsets, neighbors)`. -/
def fill_step (st : (ℕ → ℕ) × (ℕ → ℕ)) (e : ℕ × ℕ) : (ℕ → ℕ) × (ℕ → ℕ) :=
  let n1 := Function.update st.2 (st.1 e.1) e.2
  let c1 := bumpAt st.1 e.1
  let n2 := Function.update n1 (c1 e.2) e.1
  let c2 := bumpAt c1 e.2
  (c2, n2)

/-- CSR cluster-adjacency graph (`Adjacency` in `partitioner.rs`); the two
`Vec<u32>` arrays are modelled as functions. -/
structure Adjacency where
  offsets : ℕ → ℕ
  neighbors : ℕ → ℕ

/-- `partitioner.rs` `build_adjacency`: entry emission, sort by vertex id,
consecutive-pair edge extraction, sort + dedup, degree count, running sum,
cursor fill. -/
def build_adjacency (num_clusters : ℕ) (cluster_indices : List ℕ)
    (meshlet_vertex_indices : List ℕ) (cluster_vertex_offsets : List (ℕ × ℕ)) :
    Adjacency :=
  let entries := List.insertionSort entryLE
    (adjacency_entries cluster_indices meshlet_vertex_indices cluster_vertex_offsets)
  let raw_adj := dedup_consecutive
    (List.insertionSort edgeLE (consecutive_edges entries))
  let offsets := csr_offsets num_clusters raw_adj
  let filled := raw_adj.foldl fill_step (offsets, fun _ => 0)
  ⟨offsets, filled.2⟩

/-- `Adjacency::get_neighbors`: the slice
`neighbors[offsets[c] .. offsets[c+1]]`. -/
def get_neighbors (adj : Adjacency) (cluster_idx : ℕ) : List ℕ :=
  (List.range (adj.offsets (cluster_idx + 1) - adj.offsets cluster_idx)).map
    (fun i => adj.neighbors (adj.offsets cluster_idx + i))

/-- The neighbor-acceptance fold inside the BFS: push every neighbor that is
unvisited and in the current level set, marking it visited. State is
`(visited, queue)`. -/
def bfs_expand (adj : Adjacency) (in_level : ℕ → Bool) (idx : ℕ)
    (visited : ℕ → Bool) (queue : List ℕ) : (ℕ → Bool) × List ℕ :=
  (get_neighbors adj idx).foldl
    (fun (st : (ℕ → Bool) × List ℕ) nb =>
      if st.1 nb = false ∧ in_level nb = true then
        (Function.update st.1 nb true, st.2 ++ [nb])
      else st) (visited, queue)

/-- The `while let Some(idx) = queue.pop_front()` BFS loop of
`partition_clusters`, with explicit fuel. Every pop either ends the loop
(group full) or consumes one queue element; at most
`1 + cluster_indices.length` elements are ever queued in one BFS (the
start plus one per distinct in-level cluster that gets marked visited), so
any fuel of at least that size gives exactly the source loop's result. -/
def bfs_loop (adj : Adjacency) (in_level : ℕ → Bool) (target : ℕ) :
    ℕ → List ℕ → (ℕ → Bool) → List ℕ → ((ℕ → Bool) × List ℕ)
  | 0, _, visited, grp => (visited, grp)
  | fuel + 1, queue, visited, grp =>
    match queue with
    | [] => (visited, grp)
    | idx :: rest =>
      let grp := grp ++ [idx]
      if grp.length ≥ target then (visited, grp)
      else
        let st := bfs_expand adj in_level idx visited rest
        bfs_loop adj in_level target fuel st.2 st.1 grp

/-- `partitioner.rs` `partition_clusters`: repeated bounded BFS from each
unvisited cluster of the level. The `u64` bitsets are modelled as
`ℕ → Bool` functions; `in_current_level` is membership in
`cluster_indices`. -/
def partition_clusters (num_clusters : ℕ) (cluster_indices : List ℕ)
    (adj : Adjacency) (target_group_size : ℕ) : List (List ℕ) :=
  let in_level : ℕ → Bool := fun i => cluster_indices.contains i
  (cluster_indices.foldl
    (fun (st : (ℕ → Bool) × List (List ℕ)) start_idx =>
      if st.1 start_idx then st
      else
        let visited := Function.update st.1 start_idx true
        let res := bfs_loop adj in_level target_group_size
          (cluster_indices.length + 1) [start_idx] visited []
        (res.1, if res.2.isEmpty then st.2 else st.2 ++ [res.2]))
    ((fun _ => false), [])).2

/-! ## builder.rs driver -/

/-- `builder.rs` `build_next_level`: build the adjacency over the current
level (the source reads each current cluster's `(vertex_offset,
vertex_count)` out of the global arrays before partitioning; here the
offset table is passed to the 4-argument `build_adjacency` of
`partitioner.rs`), partition with the level-dependent group size, and run
the per-group tasks, merging their results in the order given by the
`sched` oracle (the completion order of the `rayon` parallel loop). -/
def build_next_level (O : Oracles) (vertices : List AVertex) (s : BState)
    (current_indices : List ℕ) (level : ℕ) : BState × List ℕ :=
  let cvo := s.clusters.map (fun c => (c.vertex_offset, c.counts % 256))
  let group_size := if level < 2 then 8 else 12
  let adj := build_adjacency s.clusters.length current_indices s.v_indices cvo
  let groups := partition_clusters s.clusters.length current_indices adj group_size
  let ordered := O.sched level groups
  ordered.foldl
    (fun (acc : BState × List ℕ) g =>
      let r := process_group O vertices acc.1 g level
      (r.1, acc.2 ++ r.2)) (s, [])

/-- Result of a full build: the final global state, the final
`current_level_indices` at loop exit, and the number of
`build_next_level` calls that were made. -/
structure BuildResult where
  state : BState
  vertices : List AVertex
  final : List ℕ
  levels : ℕ
  deriving Repr

/-- The `while current_level_indices.len() > 1` loop of `NaniteBuilder::build`,
with explicit fuel. The loop recurses only when the next level is strictly
smaller than the current one, so fuel `current.length` always suffices and
the fuelled function equals the source loop. -/
def build_loop (O : Oracles) (vertices : List AVertex) :
    ℕ → BState → List ℕ → ℕ → BState × List ℕ × ℕ
  | 0, s, current, _ => (s, current, 0)
  | fuel + 1, s, current, level =>
    if current.length > 1 then
      let r := build_next_level O vertices s current level
      if r.2.length ≥ current.length then (r.1, current, 1)
      else
        let rec2 := build_loop O vertices fuel r.1 r.2 (level + 1)
        (rec2.1, rec2.2.1, rec2.2.2 + 1)
    else (s, current, 0)

/-- `NaniteBuilder::build` starting from the empty store: generate level 0,
then run the LOD loop. -/
def build (O : Oracles) (vertices : List AVertex) (indices : List ℕ) :
    BuildResult :=
  let g0 := generate_level0 O vertices ⟨[], [], []⟩ indices
  let r := build_loop O vertices g0.2.length g0.1 g0.2 0
  ⟨r.1, vertices, r.2.1, r.2.2⟩

/-- `processor/mod.rs` `process_mesh` vertex construction: one vertex per
position triple, verbatim, substituting normal `(0,1,0)` and uv `(0,0)`
when the corresponding input array is empty. -/
def mk_vertices (positions normals uvs : List ℚ) : List AVertex :=
  (List.range (positions.length / 3)).map
    (fun i =>
      { position := ⟨positions.getD (i * 3) 0, positions.getD (i * 3 + 1) 0,
          positions.getD (i * 3 + 2) 0⟩
        normal :=
          if normals.isEmpty then ⟨0, 1, 0⟩
          else ⟨normals.getD (i * 3) 0, normals.getD (i * 3 + 1) 0,
            normals.getD (i * 3 + 2) 0⟩
        uv :=
          if uvs.isEmpty then (0, 0)
          else (uvs.getD (i * 2) 0, uvs.getD (i * 2 + 1) 0) })

/-- `processor/mod.rs` `process_mesh`: build the vertex list and run the
builder on the unmodified index buffer. -/
def process_mesh (O : Oracles) (positions normals uvs : List ℚ)
    (indices : List ℕ) : BuildResult :=
  build O (mk_vertices positions normals uvs) indices

/-! ## types.rs: on-disk format

`types.rs` declares its own `repr(C)` `ClusterPacked` with two extra fields
(`child_count`, `child_base`) and one padding word, still 48 bytes, and a
`LadHeader` with a `root_cluster_index` field and three padding words after
the four counts, for a total of 56 bytes. The serializer writes the raw
struct bytes little-endian. `f32` bit patterns are not modelled: the byte
encoding of a float is an uninterpreted parameter `enc`, constrained to
4 bytes per value in the theorems. -/

/-- Cluster record as laid out by `types.rs` (the serializer's view). -/
structure ClusterPackedT where
  center_radius : Q3 × ℚ
  vertex_offset : ℕ
  triangle_offset : ℕ
  counts : ℕ
  lod_error : ℚ
  parent_error : ℚ
  child_count : ℕ
  child_base : ℕ
  deriving DecidableEq, Repr, Inhabited

/-- `AdaptrixFlatAsset` of `types.rs`. -/
structure AdaptrixFlatAsset where
  clusters : List ClusterPackedT
  vertices : List AVertex
  meshlet_vertex_indices : List ℕ
  meshlet_primitive_indices : List ℕ
  cluster_children : List ℕ
  deriving DecidableEq, Repr, Inhabited

/-- Little-endian bytes of a `u32`. -/
def u32le (x : ℕ) : List ℕ :=
  [x % 256, x / 256 % 256, x / 256 ^ 2 % 256, x / 256 ^ 3 % 256]

/-- Little-endian bytes of a `u64`. -/
def u64le (x : ℕ) : List ℕ :=
  [x % 256, x / 256 % 256, x / 256 ^ 2 % 256, x / 256 ^ 3 % 256,
   x / 256 ^ 4 % 256, x / 256 ^ 5 % 256, x / 256 ^ 6 % 256, x / 256 ^ 7 % 256]

/-- The 56 raw bytes of `LadHeader`: magic `LLAD`, `version: u32`, the four
`u64` counts, `root_cluster_index: u32`, and three `u32` padding words. -/
def lad_header_bytes (num_clusters num_vertices num_v_indices num_p_indices
    root_cluster_index : ℕ) : List ℕ :=
  [76, 76, 65, 68] ++ u32le 1 ++ u64le num_clusters ++ u64le num_vertices ++
    u64le num_v_indices ++ u64le num_p_indices ++ u32le root_cluster_index ++
    u32le 0 ++ u32le 0 ++ u32le 0

/-- The 48 raw bytes of a `types.rs` `ClusterPacked`, given a 4-byte float
encoding `enc`. -/
def cluster_bytes (enc : ℚ → List ℕ) (c : ClusterPackedT) : List ℕ :=
  enc c.center_radius.1.x ++ enc c.center_radius.1.y ++ enc c.center_radius.1.z ++
    enc c.center_radius.2 ++ u32le c.vertex_offset ++ u32le c.triangle_offset ++
    u32le c.counts ++ enc c.lod_error ++ enc c.parent_error ++
    u32le c.child_count ++ u32le c.child_base ++ u32le 0

/-- The 32 raw bytes of an `AdaptrixVertex`. -/
def vertex_bytes (enc : ℚ → List ℕ) (v : AVertex) : List ℕ :=
  enc v.position.x ++ enc v.position.y ++ enc v.position.z ++
    enc v.normal.x ++ enc v.normal.y ++ enc v.normal.z ++
    enc v.uv.1 ++ enc v.uv.2

/-- `types.rs` `AdaptrixAsset::save_to_file`: header, then the four arrays
back to back, then zero padding to a 4-byte boundary computed from the
accumulated position, then the `cluster_children` array. -/
def save_to_file (enc : ℚ → List ℕ) (asset : AdaptrixFlatAsset)
    (root_cluster_index : ℕ) : List ℕ :=
  let current_pos := 56 + asset.clusters.length * 48 + asset.vertices.length * 32 +
    asset.meshlet_vertex_indices.length * 4 + asset.meshlet_primitive_indices.length
  lad_header_bytes asset.clusters.length asset.vertices.length
      asset.meshlet_vertex_indices.length asset.meshlet_primitive_indices.length
      root_cluster_index ++
    asset.clusters.foldr (fun c acc => cluster_bytes enc c ++ acc) [] ++
    asset.vertices.foldr (fun v acc => vertex_bytes enc v ++ acc) [] ++
    asset.meshlet_vertex_indices.foldr (fun i acc => u32le i ++ acc) [] ++
    asset.meshlet_primitive_indices.map (fun b => b % 256) ++
    List.replicate ((4 - current_pos % 4) % 4) 0 ++
    asset.cluster_children.foldr (fun i acc => u32le i ++ acc) []

/-- The two failure cases of `load_from_file` that are visible at the byte
level (I/O failures of `File::open` / `Mmap::map` are outside the model). -/
inductive LoadError where
  | tooSmall
  | badMagic
  deriving DecidableEq, Repr

/-- The loaded view `load_from_file` builds: the header counts and, for each
array, the byte offset at which its slice starts inside the mapping.
Slice byte lengths are `48 * num_clusters`, `32 * num_vertices`,
`4 * num_v_indices` and `num_p_indices`. -/
structure LoadedAsset where
  num_clusters : ℕ
  num_vertices : ℕ
  num_v_indices : ℕ
  num_p_indices : ℕ
  root_cluster_index : ℕ
  clusters_off : ℕ
  vertices_off : ℕ
  v_indices_off : ℕ
  p_indices_off : ℕ
  children_off : ℕ
  num_children : ℕ
  deriving DecidableEq, Repr, Inhabited

/-- Little-endian `u32` read from a byte list. -/
def readU32 (bytes : List ℕ) (off : ℕ) : ℕ :=
  bytes.getD off 0 + 256 * bytes.getD (off + 1) 0 +
    256 ^ 2 * bytes.getD (off + 2) 0 + 256 ^ 3 * bytes.getD (off + 3) 0

/-- Little-endian `u64` read from a byte list. -/
def readU64 (bytes : List ℕ) (off : ℕ) : ℕ :=
  readU32 bytes off + 256 ^ 4 * readU32 bytes (off + 4)

/-- `types.rs` `AdaptrixAsset::load_from_file` on the mapped bytes: fail if
the mapping is smaller than the 56-byte header or the magic is not
`LLAD`; otherwise read the header and compute each array's offset purely
from the counts and struct sizes, with no check against the mapping's
length. The trailing `cluster_children` length uses the release-mode
wrapping semantics of `(mmap.len() - offset) / 4`. -/
def load_from_file (bytes : List ℕ) : Except LoadError LoadedAsset :=
  if bytes.length < 56 then Except.error LoadError.tooSmall
  else if decide (bytes.take 4 = [76, 76, 65, 68]) = false then
    Except.error LoadError.badMagic
  else
    let num_clusters := readU64 bytes 8
    let num_vertices := readU64 bytes 16
    let num_v_indices := readU64 bytes 24
    let num_p_indices := readU64 bytes 32
    let root := readU32 bytes 40
    let clusters_off := 56
    let vertices_off := clusters_off + num_clusters * 48
    let v_indices_off := vertices_off + num_vertices * 32
    let p_indices_off := v_indices_off + num_v_indices * 4
    let end_p := p_indices_off + num_p_indices
    let children_off := end_p + (4 - end_p % 4) % 4
    let num_children := (bytes.length + 2 ^ 64 - children_off % 2 ^ 64) % 2 ^ 64 / 4
    Except.ok
      { num_clusters := num_clusters
        num_vertices := num_vertices
        num_v_indices := num_v_indices
        num_p_indices := num_p_indices
        root_cluster_index := root
        clusters_off := clusters_off
        vertices_off := vertices_off
        v_indices_off := v_indices_off
        p_indices_off := p_indices_off
        children_off := children_off
        num_children := num_children }

/-! ## Proof scaffolding for the monotone-error invariant -/

/-- An upper bound on every `lod_error` the build can have assigned once
`l` levels have been built: each level adds at most its error threshold
`0.01 * 2^level`, the ratio-estimate constant `0.1`, and the
`0.001` bump. -/
def errorBound : ℕ → ℚ
  | 0 => 0
  | l + 1 => errorBound l + level_error_threshold l + 1 / 10 + 1 / 1000

/-- The per-cluster part of the monotone-error invariant: strictly smaller
`lod_error` than `parent_error`, and a nonnegative `lod_error` bounded by
`bound`. -/
def clusterOK (bound : ℚ) (x : ClusterPacked) : Prop :=
  x.lod_error < x.parent_error ∧ 0 ≤ x.lod_error ∧ x.lod_error ≤ bound

/-- Invariant threaded through the per-level folds of `build_next_level`,
relative to the level's starting state `s`: every stored cluster is
`clusterOK bound`, the `lod_error` of every pre-existing slot is
unchanged (only `parent_error` is ever patched), the store only grows,
and all collected new indices are in range. -/
def levelFoldInv (s : BState) (bound : ℚ) (acc : BState × List ℕ) : Prop :=
  (∀ x ∈ acc.1.clusters, clusterOK bound x) ∧
  (∀ c < s.clusters.length,
    (acc.1.clusters.getD c default).lod_error =
      (s.clusters.getD c default).lod_error) ∧
  s.clusters.length ≤ acc.1.clusters.length ∧
  (∀ i ∈ acc.2, i < acc.1.clusters.length)

/-- Invariant of the LOD driver loop: every stored cluster is
`clusterOK bound`, and the current level's indices are in range. -/
def buildInv (s : BState) (current : List ℕ) (bound : ℚ) : Prop :=
  (∀ x ∈ s.clusters, clusterOK bound x) ∧
  (∀ c ∈ current, c < s.clusters.length)

/-! ## Concrete instances used by counterexamples and witnesses -/

/-- Trivial oracle instantiation: the meshlet builder returns no meshlets,
the simplifiers return empty index buffers, square root is the zero
function, and the scheduler keeps the partitioner's order. -/
def O0 : Oracles :=
  { build_meshlets := fun _ _ _ _ => []
    meshopt_simplify := fun _ _ _ _ => []
    meshopt_simplify_sloppy := fun _ _ _ => []
    sqrtq := fun _ => 0
    sched := fun _ g => g }

/-- A 4-byte float encoding that distinguishes the value 99 (used to make
the first byte of a concrete cluster's serialization visible). -/
def enc1 : ℚ → List ℕ := fun q => [if q = 99 then 1 else 0, 0, 0, 0]

/-- A concrete `types.rs` cluster whose first serialized byte under `enc1`
is 1. -/
def cl1 : ClusterPackedT :=
  { center_radius := (⟨99, 0, 0⟩, 0)
    vertex_offset := 0
    triangle_offset := 0
    counts := 0
    lod_error := 0
    parent_error := 0
    child_count := 0
    child_base := 0 }

/-- A concrete flat asset with one cluster and empty arrays. -/
def asset1 : AdaptrixFlatAsset :=
  { clusters := [cl1]
    vertices := []
    meshlet_vertex_indices := []
    meshlet_primitive_indices := []
    cluster_children := [] }

/-- A 56-byte file: a valid header claiming one cluster, with nothing after
it. `load_from_file` accepts it although the cluster slice extends past
the mapping. -/
def bytes56 : List ℕ := lad_header_bytes 1 0 0 0 0

/-- Eight concrete vertices (all at the origin; only the vertex ids matter
for the star adjacency). -/
def star_vertices : List AVertex :=
  List.replicate 8 { position := ⟨0, 0, 0⟩, normal := ⟨0, 1, 0⟩, uv := (0, 0) }

/-- Nine triangle-free meshlets forming a star: meshlet 0 uses the eight
global vertices `0..7`; meshlet `i` (for `i = 1..8`) uses the single
global vertex `i - 1`. Cluster 0 therefore shares exactly one vertex with
each of clusters `1..8`, and clusters `1..8` share no vertex with each
other. -/
def star_meshlets : List Meshlet :=
  ⟨List.range 8, 0, []⟩ :: (List.range 8).map (fun i => ⟨[i], 0, []⟩)

/-- Oracle for the star build: the meshlet builder returns the nine star
meshlets for the level-0 call (vertex count 8) and a single empty meshlet
for the recluster call; the simplifier keeps the first three indices. -/
def O9 : Oracles :=
  { build_meshlets := fun _ n _ _ =>
      if n = 8 then star_meshlets else [⟨[], 0, []⟩]
    meshopt_simplify := fun idx _ _ _ => idx.take 3
    meshopt_simplify_sloppy := fun idx _ _ => idx.take 3
    sqrtq := fun _ => 0
    sched := fun _ g => g }

/-- The star build: nine level-0 clusters in star adjacency, one further
level. -/
def star_build : BuildResult := build O9 star_vertices [99]

/-- The level of nine star clusters, as cluster index list. -/
def star_indices : List ℕ := List.range 9

/-- The global meshlet-vertex-index array of the star level (cluster 0 at
offset 0 with 8 vertices, cluster `i` at offset `8 + (i-1)` with 1). -/
def star_v_indices : List ℕ := List.range 8 ++ List.range 8

/-- Per-cluster `(vertex_offset, vertex_count)` of the star level. -/
def star_cvo : List (ℕ × ℕ) :=
  (0, 8) :: (List.range 8).map (fun i => (8 + i, 1))

/-- CSR adjacency of the star level: cluster 0 is adjacent to each of
`1..8`. -/
def star_adj : Adjacency := build_adjacency 9 star_indices star_v_indices star_cvo

/-- Concrete two-cluster state for the merge-order experiment: two clusters
with disjoint vertex sets (so they fall into two singleton groups), with
different `lod_error` so their groups compute different parent errors. -/
def c7_state : BState :=
  { clusters :=
      [{ center_radius := (⟨0, 0, 0⟩, 0), vertex_offset := 0, triangle_offset := 0,
         counts := 1 + 256 * 1, lod_error := 0, parent_error := f32_1e10 },
       { center_radius := (⟨0, 0, 0⟩, 0), vertex_offset := 1, triangle_offset := 4,
         counts := 2 + 256 * 1, lod_error := 1 / 2, parent_error := f32_1e10 }]
    v_indices := [0, 1, 2]
    p_indices := [0, 0, 0, 0, 0, 1, 0, 0] }

/-- Vertices for the merge-order experiment. -/
def c7_vertices : List AVertex :=
  [{ position := ⟨0, 0, 0⟩, normal := ⟨0, 1, 0⟩, uv := (0, 0) },
   { position := ⟨1, 0, 0⟩, normal := ⟨0, 1, 0⟩, uv := (0, 0) },
   { position := ⟨0, 1, 0⟩, normal := ⟨0, 1, 0⟩, uv := (0, 0) }]

/-- Oracle whose scheduler merges the per-group results in the
partitioner's order (one possible completion order of the parallel
loop). -/
def O7a : Oracles :=
  { build_meshlets := fun idx _ _ _ => if idx.isEmpty then [] else [⟨[0], 1, [0, 0, 0]⟩]
    meshopt_simplify := fun idx _ _ _ => idx.take 3
    meshopt_simplify_sloppy := fun idx _ _ => idx.take 3
    sqrtq := fun _ => 0
    sched := fun _ g => g }

/-- The same oracle with the reversed completion order. -/
def O7b : Oracles := { O7a with sched := fun _ g => g.reverse }

/-- The view `load_from_file` computes for `bytes56`. -/
def loadv56 : LoadedAsset :=
  { num_clusters := 1
    num_vertices := 0
    num_v_indices := 0
    num_p_indices := 0
    root_cluster_index := 0
    clusters_off := 56
    vertices_off := 104
    v_indices_off := 104
    p_indices_off := 104
    children_off := 104
    num_children := 4611686018427387892 }

/-! ## Scaffolding for the adjacency analysis -/

/-- The entry list of `build_adjacency` after the sort by vertex id. -/
def sorted_entries (cluster_indices : List ℕ) (meshlet_vertex_indices : List ℕ)
    (cluster_vertex_offsets : List (ℕ × ℕ)) : List (ℕ × ℕ) :=
  List.insertionSort entryLE
    (adjacency_entries cluster_indices meshlet_vertex_indices
      cluster_vertex_offsets)

/-- The deduplicated sorted edge list of `build_adjacency` (`raw_adj` after
`sort_unstable` + `dedup`). -/
def final_edges (cluster_indices : List ℕ) (meshlet_vertex_indices : List ℕ)
    (cluster_vertex_offsets : List (ℕ × ℕ)) : List (ℕ × ℕ) :=
  dedup_consecutive (List.insertionSort edgeLE
    (consecutive_edges (sorted_entries cluster_indices meshlet_vertex_indices
      cluster_vertex_offsets)))

/-- The full all-pairs adjacency relation the spec compares against: two
distinct clusters are adjacent iff some vertex id occurs in both clusters'
entry lists. -/
def shares_vertex (cluster_indices : List ℕ) (meshlet_vertex_indices : List ℕ)
    (cluster_vertex_offsets : List (ℕ × ℕ)) (x y : ℕ) : Prop :=
  x ≠ y ∧ ∃ v2,
    (v2, x) ∈ adjacency_entries cluster_indices meshlet_vertex_indices
      cluster_vertex_offsets ∧
    (v2, y) ∈ adjacency_entries cluster_indices meshlet_vertex_indices
      cluster_vertex_offsets

/-- Partial sums of `f` over `0..k`, describing the CSR offsets produced by
the running-sum loop. -/
def sumLe (f : ℕ → ℕ) : ℕ → ℕ
  | 0 => f 0
  | k + 1 => sumLe f k + f (k + 1)

/-- The neighbors a prefix `p` of the edge list contributes to cluster `c`,
in fill order: the other endpoint of every edge of `p` incident to `c`. -/
def partners (p : List (ℕ × ℕ)) (c : ℕ) : List ℕ :=
  (p.filter (fun e => decide (e.1 = c ∨ e.2 = c))).map
    (fun e => if e.1 = c then e.2 else e.1)

/-- Invariant of the CSR cursor-fill fold after processing the prefix `p`:
every cursor sits `(partners p c).length` past its segment start, and the
segment of `c` holds `partners p c` as its first entries. -/
def fillInv (off : ℕ → ℕ) (p : List (ℕ × ℕ)) (st : (ℕ → ℕ) × (ℕ → ℕ)) : Prop :=
  (∀ c, st.1 c = off c + (partners p c).length) ∧
  (∀ c i, i < (partners p c).length →
    st.2 (off c + i) = (partners p c).getD i 0)

instance : IsTotal (ℕ × ℕ) entryLE := ⟨fun a b => Nat.le_total a.1 b.1⟩

instance : IsTrans (ℕ × ℕ) entryLE := ⟨fun _ _ _ h1 h2 => le_trans h1 h2⟩

/-! ## Helper lemmas -/

theorem getD_append_length {α : Type} [Inhabited α] (l : List α) (a : α) :
    (l ++ [a]).getD l.length default = a := by
  induction l with
  | nil => rfl
  | cons x t ih =>
    simp only [List.cons_append, List.length_cons, List.getD_cons_succ]
    exact ih

theorem padTo4_length_mod (l : List ℕ) : (padTo4 l).length % 4 = 0 := by
  simp only [padTo4, List.length_append, List.length_replicate]
  omega

theorem getD_append_left {α : Type} [Inhabited α] (l l2 : List α) (i : ℕ)
    (h : i < l.length) : (l ++ l2).getD i default = l.getD i default := by
  simp [List.getD_eq_getElem?_getD, List.getElem?_append, h]

theorem getD_set {α : Type} [Inhabited α] (l : List α) (i c : ℕ) (a : α) :
    (l.set i a).getD c default =
      if i = c ∧ i < l.length then a else l.getD c default := by
  by_cases hic : i = c
  · subst hic
    by_cases hlen : i < l.length
    · simp [List.getD_eq_getElem?_getD, List.getElem?_set, hlen]
    · have hnone : l[i]? = none := by
        simp [List.getElem?_eq_none_iff]
        omega
      simp [List.getD_eq_getElem?_getD, List.getElem?_set, hlen, hnone]
  · simp [List.getD_eq_getElem?_getD, List.getElem?_set, hic]

/-! ## Claim C10 -/

/-- C10: every call of `push_cluster_thread_safe` with an empty local-vertex
slice returns normally (the centroid division is guarded by the emptiness
check, so no division by zero occurs): the recorded bounding sphere is
center `(0,0,0)` with radius `0`, the packed `counts` word encodes vertex
count `0` and triangle count `local_tris.length / 3`, and the global
primitive-index array is the old array extended by `local_tris` and then
padded with zero bytes to a multiple of 4. The hypothesis
`local_tris.length / 3 < 256` is the store's documented precondition
(at most 255 triangles per cluster); without it the 8-bit field wraps. -/
theorem C10_push_cluster_empty_local_verts (O : Oracles) (vertices : List AVertex)
    (s : BState) (local_tris : List ℕ) (lod parent : ℚ)
    (h : local_tris.length / 3 < 256) :
    ((push_cluster_thread_safe O vertices s [] local_tris lod
        parent).1.clusters.getD
      (push_cluster_thread_safe O vertices s [] local_tris lod parent).2
      default).center_radius = (⟨0, 0, 0⟩, 0) ∧
    ((push_cluster_thread_safe O vertices s [] local_tris lod
        parent).1.clusters.getD
      (push_cluster_thread_safe O vertices s [] local_tris lod parent).2
      default).counts % 256 = 0 ∧
    ((push_cluster_thread_safe O vertices s [] local_tris lod
        parent).1.clusters.getD
      (push_cluster_thread_safe O vertices s [] local_tris lod parent).2
      default).counts / 256 = local_tris.length / 3 ∧
    (push_cluster_thread_safe O vertices s [] local_tris lod
      parent).1.p_indices.length % 4 = 0 ∧
    (push_cluster_thread_safe O vertices s [] local_tris lod parent).1.p_indices =
      s.p_indices ++ local_tris ++
        List.replicate ((4 - (s.p_indices ++ local_tris).length % 4) % 4) 0 := by
  refine ⟨?_, ?_, ?_, ?_, ?_⟩
  · simp [push_cluster_thread_safe, getD_append_length]
  · simp only [push_cluster_thread_safe, getD_append_length, List.length_nil,
      Nat.zero_mod, Nat.zero_add]
    omega
  · simp only [push_cluster_thread_safe, getD_append_length, List.length_nil,
      Nat.zero_mod, Nat.zero_add]
    omega
  · exact padTo4_length_mod _
  · simp [push_cluster_thread_safe, padTo4]

/-- Witness for C10 at a concrete input: three triangle-corner bytes. -/
theorem C10_witness :
    ([0, 1, 2] : List ℕ).length / 3 < 256 ∧
    (((push_cluster_thread_safe
        { build_meshlets := fun _ _ _ _ => [], meshopt_simplify := fun _ _ _ _ => [],
          meshopt_simplify_sloppy := fun _ _ _ => [], sqrtq := fun _ => 0,
          sched := fun _ g => g } [] ⟨[], [], []⟩ [] [0, 1, 2] 0
        f32_1e10).1.clusters.getD
      (push_cluster_thread_safe
        { build_meshlets := fun _ _ _ _ => [], meshopt_simplify := fun _ _ _ _ => [],
          meshopt_simplify_sloppy := fun _ _ _ => [], sqrtq := fun _ => 0,
          sched := fun _ g => g } [] ⟨[], [], []⟩ [] [0, 1, 2] 0 f32_1e10).2
      default).center_radius = (⟨0, 0, 0⟩, 0) ∧
    True) :=
  ⟨by decide,
    (C10_push_cluster_empty_local_verts _ [] ⟨[], [], []⟩ [0, 1, 2] 0 f32_1e10
      (by decide)).1,
    trivial⟩

/-! ## Claim C5 -/

theorem foldr_chunks_length {α : Type} (f : α → List ℕ) (k : ℕ)
    (h : ∀ a, (f a).length = k) (l : List α) :
    (l.foldr (fun a acc => f a ++ acc) []).length = k * l.length := by
  induction l with
  | nil => simp
  | cons a t ih =>
    simp only [List.foldr_cons, List.length_append, List.length_cons, h, ih]
    ring

theorem lad_header_bytes_length (a b c d e : ℕ) :
    (lad_header_bytes a b c d e).length = 56 := by
  simp [lad_header_bytes, u32le, u64le]

theorem cluster_bytes_length (enc : ℚ → List ℕ) (h4 : ∀ q, (enc q).length = 4)
    (c : ClusterPackedT) : (cluster_bytes enc c).length = 48 := by
  simp [cluster_bytes, u32le, h4]

theorem vertex_bytes_length (enc : ℚ → List ℕ) (h4 : ∀ q, (enc q).length = 4)
    (v : AVertex) : (vertex_bytes enc v).length = 32 := by
  simp [vertex_bytes, h4]

theorem u32le_length (x : ℕ) : (u32le x).length = 4 := rfl

theorem append_chunks5 (H CB VB VI PI R : List ℕ) (a b c d e : ℕ)
    (hH : H.length = a) (hCB : CB.length = b) (hVB : VB.length = c)
    (hVI : VI.length = d) (hPI : PI.length = e) :
    (H ++ (CB ++ (VB ++ (VI ++ (PI ++ R))))).take a = H ∧
    ((H ++ (CB ++ (VB ++ (VI ++ (PI ++ R))))).drop a).take b = CB ∧
    ((H ++ (CB ++ (VB ++ (VI ++ (PI ++ R))))).drop (a + b)).take c = VB ∧
    ((H ++ (CB ++ (VB ++ (VI ++ (PI ++ R))))).drop (a + b + c)).take d = VI ∧
    ((H ++ (CB ++ (VB ++ (VI ++ (PI ++ R))))).drop (a + b + c + d)).take e = PI := by
  subst hH hCB hVB hVI hPI
  refine ⟨List.take_left _ _, ?_, ?_, ?_, ?_⟩
  · rw [List.drop_left]
    exact List.take_left _ _
  · rw [List.drop_append, List.drop_left]
    exact List.take_left _ _
  · rw [Nat.add_assoc, List.drop_append, List.drop_append, List.drop_left]
    exact List.take_left _ _
  · rw [Nat.add_assoc, Nat.add_assoc, List.drop_append, List.drop_append,
      List.drop_append, List.drop_left]
    exact List.take_left _ _

/-- C5 counterexample: the claim says the header consists only of the magic,
the version and the four counts, so that the clusters array begins at byte
offset 40. In `types.rs` the header additionally carries
`root_cluster_index: u32` and three `u32` padding words (56 bytes total).
At a concrete one-cluster asset saved with root index 7, the four bytes at
offset 40 are the little-endian root index `[7,0,0,0]`, not the first
cluster bytes `[1,0,0,0]`, which instead appear at offset 56. -/
theorem C5_counterexample :
    (List.drop 40 (save_to_file enc1 asset1 7)).take 4 = [7, 0, 0, 0] ∧
    (List.drop 56 (save_to_file enc1 asset1 7)).take 4 = [1, 0, 0, 0] ∧
    (cluster_bytes enc1 cl1).take 4 = [1, 0, 0, 0] ∧
    ([7, 0, 0, 0] : List ℕ) ≠ [1, 0, 0, 0] := by
  refine ⟨?_, ?_, ?_, ?_⟩ <;> decide

/-- C5 amended: the serializer writes a 56-byte header (magic `LLAD`,
version `u32` equal to 1, the four array counts as `u64` values, the root
cluster index as `u32`, and 12 padding bytes), so the clusters array
begins at byte offset 56, followed back-to-back by the vertices (32 bytes
each), the meshlet vertex indices (4 bytes each) and the meshlet
primitive indices (1 byte each); `cluster_children` follows after
padding. Stated for any 4-byte float encoding. -/
theorem C5_amended_layout (enc : ℚ → List ℕ) (asset : AdaptrixFlatAsset)
    (root : ℕ) (h4 : ∀ q, (enc q).length = 4) :
    (save_to_file enc asset root).take 56 =
      lad_header_bytes asset.clusters.length asset.vertices.length
        asset.meshlet_vertex_indices.length
        asset.meshlet_primitive_indices.length root ∧
    ((save_to_file enc asset root).drop 56).take (48 * asset.clusters.length) =
      asset.clusters.foldr (fun c acc => cluster_bytes enc c ++ acc) [] ∧
    ((save_to_file enc asset root).drop (56 + 48 * asset.clusters.length)).take
        (32 * asset.vertices.length) =
      asset.vertices.foldr (fun v acc => vertex_bytes enc v ++ acc) [] ∧
    ((save_to_file enc asset root).drop
        (56 + 48 * asset.clusters.length + 32 * asset.vertices.length)).take
        (4 * asset.meshlet_vertex_indices.length) =
      asset.meshlet_vertex_indices.foldr (fun i acc => u32le i ++ acc) [] ∧
    ((save_to_file enc asset root).drop
        (56 + 48 * asset.clusters.length + 32 * asset.vertices.length +
          4 * asset.meshlet_vertex_indices.length)).take
        asset.meshlet_primitive_indices.length =
      asset.meshlet_primitive_indices.map (fun b => b % 256) := by
  have h := append_chunks5
    (lad_header_bytes asset.clusters.length asset.vertices.length
      asset.meshlet_vertex_indices.length asset.meshlet_primitive_indices.length
      root)
    (asset.clusters.foldr (fun c acc => cluster_bytes enc c ++ acc) [])
    (asset.vertices.foldr (fun v acc => vertex_bytes enc v ++ acc) [])
    (asset.meshlet_vertex_indices.foldr (fun i acc => u32le i ++ acc) [])
    (asset.meshlet_primitive_indices.map (fun b => b % 256))
    (List.replicate
        ((4 - (56 + asset.clusters.length * 48 + asset.vertices.length * 32 +
          asset.meshlet_vertex_indices.length * 4 +
          asset.meshlet_primitive_indices.length) % 4) % 4) 0 ++
      asset.cluster_children.foldr (fun i acc => u32le i ++ acc) [])
    56 (48 * asset.clusters.length) (32 * asset.vertices.length)
    (4 * asset.meshlet_vertex_indices.length)
    asset.meshlet_primitive_indices.length
    (lad_header_bytes_length _ _ _ _ _)
    (foldr_chunks_length _ 48 (cluster_bytes_length enc h4) _)
    (foldr_chunks_length _ 32 (vertex_bytes_length enc h4) _)
    (foldr_chunks_length _ 4 u32le_length _)
    (by simp)
  simpa only [save_to_file, List.append_assoc] using h

/-- C5 witness: the amended layout at a concrete one-cluster asset and a
concrete 4-byte encoding. -/
theorem C5_amended_witness :
    (∀ q, (enc1 q).length = 4) ∧
    (save_to_file enc1 asset1 7).take 56 = lad_header_bytes 1 0 0 0 7 := by
  have h4 : ∀ q, (enc1 q).length = 4 := fun q => rfl
  refine ⟨h4, ?_⟩
  have h := (C5_amended_layout enc1 asset1 7 h4).1
  simpa using h

/-! ## Claim C9 -/

/-- C9 counterexample: a 56-byte file consisting of just a valid header that
claims one cluster is accepted by `load_from_file`, yet the cluster slice
it computes (`48 * num_clusters` bytes starting at offset 56) ends at
byte 104, beyond the 56-byte mapping: the loader performs no bound check
on the array slices. -/
theorem C9_counterexample :
    load_from_file bytes56 = Except.ok loadv56 ∧
    loadv56.clusters_off + 48 * loadv56.num_clusters > bytes56.length := by
  refine ⟨rfl, by decide⟩

/-- C9 amended: `load_from_file` (modelled from the mapped bytes on; the
`File::open` / `Mmap::map` I/O failures are outside the byte-level model)
errors exactly when the mapping is smaller than the 56-byte header or the
magic differs from `LLAD`; on success the four array offsets are computed
purely from the header counts and struct sizes (48/32/4/1 bytes per
element), with no validation that they lie within the mapped region. -/
theorem C9_load_checks (bytes : List ℕ) :
    ((load_from_file bytes).toOption.isNone = true ↔
      bytes.length < 56 ∨ bytes.take 4 ≠ [76, 76, 65, 68]) ∧
    (∀ v, load_from_file bytes = Except.ok v →
      v.num_clusters = readU64 bytes 8 ∧
      v.num_vertices = readU64 bytes 16 ∧
      v.num_v_indices = readU64 bytes 24 ∧
      v.num_p_indices = readU64 bytes 32 ∧
      v.root_cluster_index = readU32 bytes 40 ∧
      v.clusters_off = 56 ∧
      v.vertices_off = 56 + v.num_clusters * 48 ∧
      v.v_indices_off = v.vertices_off + v.num_vertices * 32 ∧
      v.p_indices_off = v.v_indices_off + v.num_v_indices * 4) := by
  constructor
  · by_cases h1 : bytes.length < 56
    · simp [load_from_file, h1, Except.toOption]
    · by_cases h2 : bytes.take 4 = [76, 76, 65, 68]
      · simp [load_from_file, h1, h2, Except.toOption]
      · simp [load_from_file, h1, h2, Except.toOption]
  · intro v hv
    by_cases h1 : bytes.length < 56
    · simp [load_from_file, h1] at hv
    · by_cases h2 : bytes.take 4 = [76, 76, 65, 68]
      · simp [load_from_file, h1, h2] at hv
        subst hv
        refine ⟨rfl, rfl, rfl, rfl, rfl, rfl, rfl, rfl, rfl⟩
      · simp [load_from_file, h1, h2] at hv

/-- C9 witness: the amended loader contract at the concrete header-only
file. -/
theorem C9_amended_witness :
    ((load_from_file bytes56).toOption.isNone = true ↔
      bytes56.length < 56 ∨ bytes56.take 4 ≠ [76, 76, 65, 68]) ∧
    loadv56.vertices_off = 56 + loadv56.num_clusters * 48 :=
  ⟨(C9_load_checks bytes56).1,
    ((C9_load_checks bytes56).2 loadv56 rfl).2.2.2.2.2.2.2.1⟩

/-! ## Claim C8 -/

/-- C8 counterexample: `process_mesh` performs no welding and no
normalization before level-0 clustering. On the concrete input with
positions `(0,0,0), (0,0,0), (4,0,0)` the output vertex buffer keeps both
copies of the duplicated position (so it is not deduplicated by exact
position equality), and keeps the x extent `[0,4]` verbatim (so the
bounding box is not centered and not scaled to largest dimension 2). -/
theorem C8_counterexample :
    (process_mesh O0 [0, 0, 0, 0, 0, 0, 4, 0, 0] [] [] [0, 1, 2]).vertices.length
        = 3 ∧
    ((process_mesh O0 [0, 0, 0, 0, 0, 0, 4, 0, 0] [] [] [0, 1, 2]).vertices.getD 0
        default).position =
      ((process_mesh O0 [0, 0, 0, 0, 0, 0, 4, 0, 0] [] [] [0, 1, 2]).vertices.getD 1
        default).position ∧
    ((process_mesh O0 [0, 0, 0, 0, 0, 0, 4, 0, 0] [] [] [0, 1, 2]).vertices.getD 2
        default).position = ⟨4, 0, 0⟩ := by
  refine ⟨?_, ?_, ?_⟩ <;> decide

/-- C8 amended: `process_mesh` builds exactly one output vertex per input
position triple, copying the position verbatim (no deduplication, no
bounding-box normalization, no input validation), substituting normal
`(0,1,0)` when the normal array is empty and uv `(0,0)` when the uv array
is empty, and hands the index buffer to the builder unchanged. -/
theorem C8_process_mesh_verbatim (O : Oracles) (positions normals uvs : List ℚ)
    (indices : List ℕ) (i : ℕ) (hi : i < positions.length / 3) :
    (process_mesh O positions normals uvs indices).vertices.length =
      positions.length / 3 ∧
    ((process_mesh O positions normals uvs indices).vertices.getD i
        default).position =
      ⟨positions.getD (i * 3) 0, positions.getD (i * 3 + 1) 0,
        positions.getD (i * 3 + 2) 0⟩ ∧
    (normals.isEmpty = true →
      ((process_mesh O positions normals uvs indices).vertices.getD i
        default).normal = ⟨0, 1, 0⟩) ∧
    (uvs.isEmpty = true →
      ((process_mesh O positions normals uvs indices).vertices.getD i
        default).uv = (0, 0)) := by
  have hv : (process_mesh O positions normals uvs indices).vertices =
      mk_vertices positions normals uvs := rfl
  rw [hv]
  have hged : ∀ d : AVertex, (mk_vertices positions normals uvs).getD i d =
      (mk_vertices positions normals uvs).getD i d := fun _ => rfl
  have hget : (mk_vertices positions normals uvs).getD i default =
      { position := ⟨positions.getD (i * 3) 0, positions.getD (i * 3 + 1) 0,
          positions.getD (i * 3 + 2) 0⟩
        normal :=
          if normals.isEmpty then ⟨0, 1, 0⟩
          else ⟨normals.getD (i * 3) 0, normals.getD (i * 3 + 1) 0,
            normals.getD (i * 3 + 2) 0⟩
        uv :=
          if uvs.isEmpty then (0, 0)
          else (uvs.getD (i * 2) 0, uvs.getD (i * 2 + 1) 0) } := by
    rw [mk_vertices, List.getD_eq_getElem?_getD, List.getElem?_map,
      List.getElem?_range hi]
    rfl
  refine ⟨by simp [mk_vertices], ?_, ?_, ?_⟩
  · rw [hget]
  · intro hn
    rw [hget]
    simp [hn]
  · intro hu
    rw [hget]
    simp [hu]

/-- C8 witness: the verbatim construction at a concrete position list. -/
theorem C8_verbatim_witness :
    (0 < ([0, 0, 0, 0, 0, 0, 4, 0, 0] : List ℚ).length / 3) ∧
    (process_mesh O0 [0, 0, 0, 0, 0, 0, 4, 0, 0] [] [] [0, 1, 2]).vertices.length
      = 3 :=
  ⟨by decide,
    (C8_process_mesh_verbatim O0 [0, 0, 0, 0, 0, 0, 4, 0, 0] [] [] [0, 1, 2] 0
      (by decide)).1⟩

/-! ## Claim C3 -/

/-- C3 failing input: `partition_clusters` does not return a partition. On
the star level (cluster 0 adjacent to each of clusters 1..8) with the
target group size 8 used for fine levels, the BFS from cluster 0 marks
all eight neighbors visited while they sit in the queue, stops after
popping eight clusters, and discards the queue; cluster 8 is then skipped
by the outer loop as already visited, so it appears in no group at all. -/
theorem C3_star_partition_drops_cluster :
    8 ∈ star_indices ∧
    partition_clusters 9 star_indices star_adj 8 = [[0, 1, 2, 3, 4, 5, 6, 7]] ∧
    ∀ g ∈ partition_clusters 9 star_indices star_adj 8, 8 ∉ g := by
  refine ⟨by decide, by decide, ?_⟩
  decide

/-! ## Claim C6 -/

/-- C6 failing input: the full star build. Cluster 8 is dropped by the
partitioner (see C3), so it is never grouped, never simplified and never
patched: after the build terminates it still has
`parent_error = 1e10` (the +∞ sentinel) although it is not in the final
(top) level, which is exactly `[9]`; its grouped siblings 0..7 were
patched to a finite parent error. This contradicts the claim that exactly
the final level's clusters keep `parent_error = +∞`. -/
theorem C6_unpatched_dropped_cluster :
    star_build.state.clusters.length = 10 ∧
    star_build.final = [9] ∧
    8 ∉ star_build.final ∧
    (star_build.state.clusters.getD 8 default).parent_error = f32_1e10 ∧
    (star_build.state.clusters.getD 0 default).parent_error = 1 / 1000 ∧
    (star_build.state.clusters.getD 9 default).parent_error = f32_1e10 := by
  refine ⟨?_, ?_, ?_, ?_, ?_, ?_⟩ <;> decide

/-! ## Claim C7 -/

/-- C7: the merge phase of `build_next_level` does not sort the completed
groups by any stable key; the global cluster indices of a level are
assigned in whatever order the parallel tasks complete. Modelling the
completion order as the `sched` oracle: two oracles that differ only in
the completion order (one is the reverse of the other) produce different
cluster arrays on the same input state, so the build output bytes are not
a function of the input alone. -/
theorem C7_merge_order_changes_output :
    (∀ l g, O7b.sched l g = (O7a.sched l g).reverse) ∧
    O7b.build_meshlets = O7a.build_meshlets ∧
    O7b.meshopt_simplify = O7a.meshopt_simplify ∧
    ((build_next_level O7a c7_vertices c7_state [0, 1] 0).1.clusters.getD 2
        default).lod_error = 101 / 1000 ∧
    ((build_next_level O7b c7_vertices c7_state [0, 1] 0).1.clusters.getD 2
        default).lod_error = 601 / 1000 ∧
    ((build_next_level O7a c7_vertices c7_state [0, 1] 0).1.clusters.getD 2
        default).lod_error ≠
      ((build_next_level O7b c7_vertices c7_state [0, 1] 0).1.clusters.getD 2
        default).lod_error := by
  refine ⟨fun l g => rfl, rfl, rfl, ?_, ?_, ?_⟩ <;> decide

/-! ## Claim C2 -/

theorem push_clusters_eq (O : Oracles) (v : List AVertex) (s : BState)
    (lv lt : List ℕ) (lod par : ℚ) :
    ∃ x : ClusterPacked,
      (push_cluster_thread_safe O v s lv lt lod par).1.clusters = s.clusters ++ [x] ∧
      x.lod_error = lod ∧ x.parent_error = par :=
  ⟨_, rfl, rfl, rfl⟩

theorem push_clusters_length (O : Oracles) (v : List AVertex) (s : BState)
    (lv lt : List ℕ) (lod par : ℚ) :
    (push_cluster_thread_safe O v s lv lt lod par).1.clusters.length =
      s.clusters.length + 1 := by
  obtain ⟨x, hx, -, -⟩ := push_clusters_eq O v s lv lt lod par
  simp [hx]

theorem push_result_idx (O : Oracles) (v : List AVertex) (s : BState)
    (lv lt : List ℕ) (lod par : ℚ) :
    (push_cluster_thread_safe O v s lv lt lod par).2 = s.clusters.length := rfl

theorem push_getD_lt (O : Oracles) (v : List AVertex) (s : BState)
    (lv lt : List ℕ) (lod par : ℚ) (c : ℕ) (h : c < s.clusters.length) :
    (push_cluster_thread_safe O v s lv lt lod par).1.clusters.getD c default =
      s.clusters.getD c default := by
  obtain ⟨x, hx, -, -⟩ := push_clusters_eq O v s lv lt lod par
  rw [hx]
  exact getD_append_left _ _ _ h

theorem push_getD_new (O : Oracles) (v : List AVertex) (s : BState)
    (lv lt : List ℕ) (lod par : ℚ) :
    ((push_cluster_thread_safe O v s lv lt lod
        par).1.clusters.getD s.clusters.length default).lod_error = lod ∧
    ((push_cluster_thread_safe O v s lv lt lod
        par).1.clusters.getD s.clusters.length default).parent_error = par := by
  obtain ⟨x, hx, hl, hp⟩ := push_clusters_eq O v s lv lt lod par
  rw [hx, getD_append_length]
  exact ⟨hl, hp⟩

theorem patch_children_foldl (cl : List ClusterPacked) (a : ℕ) (t : List ℕ) (e : ℚ) :
    patch_children cl (a :: t) e =
      patch_children
        (if f32_1e9 ≤ (cl.getD a default).parent_error then
          cl.set a { cl.getD a default with parent_error := e }
        else cl) t e := rfl

theorem patch_children_length (cl : List ClusterPacked) (g : List ℕ) (e : ℚ) :
    (patch_children cl g e).length = cl.length := by
  induction g generalizing cl with
  | nil => rfl
  | cons a t ih =>
    rw [patch_children_foldl, ih]
    split <;> simp

theorem patch_children_frame (cl : List ClusterPacked) (g : List ℕ) (e : ℚ)
    (c : ℕ) (hc : c ∉ g) :
    (patch_children cl g e).getD c default = cl.getD c default := by
  induction g generalizing cl with
  | nil => rfl
  | cons a t ih =>
    rw [patch_children_foldl, ih _ (fun h => hc (List.mem_cons_of_mem a h))]
    split
    · have hne : ¬(a = c ∧ a < cl.length) := by
        rintro ⟨rfl, -⟩
        exact hc (List.mem_cons_self _ _)
      rw [getD_set, if_neg hne]
    · rfl

theorem patch_children_member (cl : List ClusterPacked) (g : List ℕ) (e : ℚ)
    (c : ℕ) (hm : c ∈ g) (hlt : c < cl.length)
    (hold : (cl.getD c default).parent_error = f32_1e10 ∨
      (cl.getD c default).parent_error = e) :
    ((patch_children cl g e).getD c default).parent_error = e := by
  induction g generalizing cl with
  | nil => cases hm
  | cons a t ih =>
    rw [patch_children_foldl]
    set cl2 := (if f32_1e9 ≤ (cl.getD a default).parent_error then
      cl.set a { cl.getD a default with parent_error := e } else cl) with hcl2
    have hlen2 : cl2.length = cl.length := by
      rw [hcl2]
      split <;> simp
    have hstep : (a = c → (cl2.getD c default).parent_error = e) ∧
        (a ≠ c → cl2.getD c default = cl.getD c default) := by
      constructor
      · intro hac
        subst hac
        rcases hold with h10 | he
        · have hguard : f32_1e9 ≤ (cl.getD a default).parent_error := by
            rw [h10]
            norm_num [f32_1e9, f32_1e10]
          rw [hcl2, if_pos hguard, getD_set, if_pos ⟨rfl, hlt⟩]
        · rw [hcl2]
          split
          · rw [getD_set, if_pos ⟨rfl, hlt⟩]
          · exact he
      · intro hac
        rw [hcl2]
        split
        · rw [getD_set, if_neg (fun h => hac h.1)]
        · rfl
    by_cases hct : c ∈ t
    · refine ih cl2 hct (by omega) ?_
      by_cases hac : a = c
      · exact Or.inr (hstep.1 hac)
      · rw [hstep.2 hac]
        exact hold
    · have hca : a = c := by
        rcases List.mem_cons.mp hm with h | h
        · exact h.symm
        · exact absurd h hct
      rw [patch_children_frame _ _ _ _ hct]
      exact hstep.1 hca

theorem foldl_max_init_le (f : ℕ → ℚ) (l : List ℕ) (b : ℚ) :
    b ≤ l.foldl (fun m x => max m (f x)) b := by
  induction l generalizing b with
  | nil => exact le_refl b
  | cons a t ih => exact le_trans (le_max_left b (f a)) (ih (max b (f a)))

theorem foldl_max_mem_le (f : ℕ → ℚ) (l : List ℕ) (c : ℕ) :
    ∀ b : ℚ, c ∈ l → f c ≤ l.foldl (fun m x => max m (f x)) b := by
  induction l with
  | nil =>
    intro b hc
    cases hc
  | cons a t ih =>
    intro b hc
    rcases List.mem_cons.mp hc with rfl | hct
    · exact le_trans (le_max_right b (f c)) (foldl_max_init_le f t _)
    · exact ih _ hct

theorem foldl_max_attained (f : ℕ → ℚ) (l : List ℕ) :
    ∀ b : ℚ, l.foldl (fun m x => max m (f x)) b = b ∨
      ∃ c ∈ l, l.foldl (fun m x => max m (f x)) b = f c := by
  induction l with
  | nil => exact fun b => Or.inl rfl
  | cons a t ih =>
    intro b
    rcases ih (max b (f a)) with h | ⟨c, hc, h⟩
    · rcases max_choice b (f a) with hm | hm
      · exact Or.inl (by rw [List.foldl_cons, h, hm])
      · exact Or.inr ⟨a, List.mem_cons_self _ _, by rw [List.foldl_cons, h, hm]⟩
    · exact Or.inr ⟨c, List.mem_cons_of_mem a hc, h⟩

theorem group_max_child_error_spec (s : BState) (group : List ℕ)
    (hne : group ≠ [])
    (hpos : ∀ c ∈ group, 0 ≤ (s.clusters.getD c default).lod_error) :
    (∀ c ∈ group,
      (s.clusters.getD c default).lod_error ≤ group_max_child_error s group) ∧
    ∃ c ∈ group,
      (s.clusters.getD c default).lod_error = group_max_child_error s group := by
  constructor
  · intro c hc
    exact foldl_max_mem_le (fun x => (s.clusters.getD x default).lod_error) group c 0 hc
  · rcases foldl_max_attained (fun x => (s.clusters.getD x default).lod_error) group 0
      with h | ⟨c, hc, h⟩
    · obtain ⟨a, t, rfl⟩ := List.exists_cons_of_ne_nil hne
      refine ⟨a, List.mem_cons_self _ _, le_antisymm ?_ ?_⟩
      · exact foldl_max_mem_le (fun x => (s.clusters.getD x default).lod_error)
          (a :: t) a 0 (List.mem_cons_self _ _)
      · rw [group_max_child_error, h]
        exact hpos a (List.mem_cons_self _ _)
    · exact ⟨c, hc, h.symm⟩

theorem push_parent_step_inv (O : Oracles) (v : List AVertex) (s : BState)
    (group : List ℕ) (e : ℚ) (g2g : List ℕ) (acc : BState × List ℕ) (m : Meshlet)
    (hmem : ∀ c ∈ group, c < s.clusters.length)
    (hinv : groupStepInv s group e acc) :
    groupStepInv s group e (push_parent_step O v group e g2g acc m) ∧
    ∀ c ∈ group,
      ((push_parent_step O v group e g2g acc m).1.clusters.getD c
        default).parent_error = e := by
  obtain ⟨hlen, hmems, hids⟩ := hinv
  have hstep : (push_parent_step O v group e g2g acc m).1.clusters =
      patch_children
        (push_cluster_thread_safe O v acc.1
          (m.vertices.map (fun lv => g2g.getD lv 0))
          (m.indicesFlat.take (m.triangle_count * 3)) e f32_1e10).1.clusters
        group e := rfl
  have hstep2 : (push_parent_step O v group e g2g acc m).2 =
      acc.2 ++ [acc.1.clusters.length] := by
    rw [show (push_parent_step O v group e g2g acc m).2 = acc.2 ++
      [(push_cluster_thread_safe O v acc.1
        (m.vertices.map (fun lv => g2g.getD lv 0))
        (m.indicesFlat.take (m.triangle_count * 3)) e f32_1e10).2] from rfl,
      push_result_idx]
  set pv := m.vertices.map (fun lv => g2g.getD lv 0) with hpv
  set at3 := m.indicesFlat.take (m.triangle_count * 3) with hat3
  set pushed := push_cluster_thread_safe O v acc.1 pv at3 e f32_1e10 with hpushed
  have hplen : pushed.1.clusters.length = acc.1.clusters.length + 1 :=
    push_clusters_length O v acc.1 pv at3 e f32_1e10
  have hnewlen : (push_parent_step O v group e g2g acc m).1.clusters.length =
      acc.1.clusters.length + 1 := by
    rw [hstep, patch_children_length, hplen]
  have hmemE : ∀ c ∈ group,
      ((push_parent_step O v group e g2g acc m).1.clusters.getD c
        default).parent_error = e := by
    intro c hc
    have hcs : c < s.clusters.length := hmem c hc
    have hclt : c < acc.1.clusters.length := lt_of_lt_of_le hcs hlen
    have hold : (pushed.1.clusters.getD c default).parent_error = f32_1e10 ∨
        (pushed.1.clusters.getD c default).parent_error = e := by
      rw [hpushed, push_getD_lt O v acc.1 pv at3 e f32_1e10 c hclt]
      exact hmems c hc
    rw [hstep]
    exact patch_children_member _ _ _ c hc (by omega) hold
  refine ⟨⟨?_, ?_, ?_⟩, hmemE⟩
  · rw [hnewlen]
    omega
  · intro c hc
    exact Or.inr (hmemE c hc)
  · intro i hi
    rw [hstep2] at hi
    have hnotg : ∀ j : ℕ, s.clusters.length ≤ j → j ∉ group := by
      intro j hj hjg
      exact absurd (hmem j hjg) (by omega)
    rcases List.mem_append.mp hi with hiold | hinew
    · obtain ⟨hi1, hi2, hi3, hi4⟩ := hids i hiold
      have hval : (push_parent_step O v group e g2g acc m).1.clusters.getD i default =
          acc.1.clusters.getD i default := by
        rw [hstep, patch_children_frame _ _ _ _ (hnotg i hi1), hpushed,
          push_getD_lt O v acc.1 pv at3 e f32_1e10 i hi2]
      rw [hval]
      exact ⟨hi1, by omega, hi3, hi4⟩
    · have hieq : i = acc.1.clusters.length := by
        cases hinew with
        | head => rfl
        | tail _ h => cases h
      subst hieq
      have hval : (push_parent_step O v group e g2g acc m).1.clusters.getD
          acc.1.clusters.length default =
          pushed.1.clusters.getD acc.1.clusters.length default := by
        rw [hstep, patch_children_frame _ _ _ _ (hnotg _ hlen)]
      rw [hval, hpushed]
      obtain ⟨hl, hp⟩ := push_getD_new O v acc.1 pv at3 e f32_1e10
      exact ⟨hlen, by omega, hl, hp⟩

theorem process_fold_inv (O : Oracles) (v : List AVertex) (s : BState)
    (group : List ℕ) (e : ℚ) (g2g : List ℕ)
    (hmem : ∀ c ∈ group, c < s.clusters.length) (ms : List Meshlet) :
    ∀ acc, groupStepInv s group e acc →
      groupStepInv s group e (ms.foldl (push_parent_step O v group e g2g) acc) := by
  induction ms with
  | nil => exact fun acc h => h
  | cons m t ih =>
    intro acc h
    exact ih _ (push_parent_step_inv O v s group e g2g acc m hmem h).1

theorem process_fold_members (O : Oracles) (v : List AVertex) (s : BState)
    (group : List ℕ) (e : ℚ) (g2g : List ℕ)
    (hmem : ∀ c ∈ group, c < s.clusters.length) (ms : List Meshlet) (hms : ms ≠ [])
    (acc : BState × List ℕ) (hinv : groupStepInv s group e acc) :
    ∀ c ∈ group,
      ((ms.foldl (push_parent_step O v group e g2g) acc).1.clusters.getD c
        default).parent_error = e := by
  intro c hc
  have hdecomp : ms.dropLast ++ [ms.getLast hms] = ms := List.dropLast_append_getLast hms
  rw [← hdecomp, List.foldl_append, List.foldl_cons, List.foldl_nil]
  exact (push_parent_step_inv O v s group e g2g _ _ hmem
    (process_fold_inv O v s group e g2g hmem ms.dropLast acc hinv)).2 c hc

/-- C2: for a group simplified at a level, the builder computes
`E_parent = max(child lod_error) + simplifier_error + 0.001`
(`group_parent_error`); the fold base `0.0` indeed realizes the maximum
over the group when the children's `lod_error` are nonnegative and the
group is nonempty. Every new cluster created from the group receives
`lod_error = E_parent` (and the +∞ sentinel as its own `parent_error`),
and every child cluster of the group has its `parent_error` patched from
the `1e10` sentinel to `E_parent` — so each child's `parent_error` equals
its parent clusters' `lod_error`. The hypotheses are the call-site
conditions: the group is a nonempty set of valid cluster indices whose
`parent_error` is still the sentinel, and re-clustering the simplified
geometry yields at least one meshlet (otherwise the source patches
nothing). -/
theorem C2_group_error_accounting (O : Oracles) (vertices : List AVertex)
    (s : BState) (group : List ℕ) (level : ℕ)
    (hne : group ≠ [])
    (hmem : ∀ c ∈ group, c < s.clusters.length ∧
      0 ≤ (s.clusters.getD c default).lod_error ∧
      (s.clusters.getD c default).parent_error = f32_1e10)
    (hms : group_next_meshlets O vertices s group level ≠ []) :
    (∀ c ∈ group,
      (s.clusters.getD c default).lod_error ≤ group_max_child_error s group) ∧
    (∃ c ∈ group,
      (s.clusters.getD c default).lod_error = group_max_child_error s group) ∧
    group_parent_error O vertices s group level =
      group_max_child_error s group +
        (group_simplified O vertices s group level).error + 1 / 1000 ∧
    (∀ i ∈ (process_group O vertices s group level).2,
      ((process_group O vertices s group level).1.clusters.getD i
          default).lod_error = group_parent_error O vertices s group level ∧
      ((process_group O vertices s group level).1.clusters.getD i
          default).parent_error = f32_1e10) ∧
    (∀ c ∈ group,
      ((process_group O vertices s group level).1.clusters.getD c
          default).parent_error = group_parent_error O vertices s group level) := by
  have hmax := group_max_child_error_spec s group hne (fun c hc => (hmem c hc).2.1)
  have hmem1 : ∀ c ∈ group, c < s.clusters.length := fun c hc => (hmem c hc).1
  have hinv0 : groupStepInv s group (group_parent_error O vertices s group level)
      (s, []) := by
    refine ⟨le_refl _, ?_, ?_⟩
    · intro c hc
      exact Or.inl (hmem c hc).2.2
    · intro i hi
      cases hi
  have hfold := process_fold_inv O vertices s group
    (group_parent_error O vertices s group level)
    (weld_group vertices s group).group_to_global_map hmem1
    (group_next_meshlets O vertices s group level) (s, []) hinv0
  refine ⟨hmax.1, hmax.2, rfl, ?_, ?_⟩
  · intro i hi
    obtain ⟨-, -, h3, h4⟩ := hfold.2.2 i hi
    exact ⟨h3, h4⟩
  · exact process_fold_members O vertices s group
      (group_parent_error O vertices s group level)
      (weld_group vertices s group).group_to_global_map hmem1
      (group_next_meshlets O vertices s group level) hms (s, []) hinv0

/-- C2 witness: the singleton group `[0]` of the two-cluster state from the
merge-order experiment, at level 0. -/
theorem C2_witness :
    (([0] : List ℕ) ≠ []) ∧
    (∀ c ∈ ([0] : List ℕ),
      ((process_group O7a c7_vertices c7_state [0] 0).1.clusters.getD c
          default).parent_error = group_parent_error O7a c7_vertices c7_state [0] 0) :=
  ⟨by decide,
    (C2_group_error_accounting O7a c7_vertices c7_state [0] 0 (by decide)
      (by decide) (by decide)).2.2.2.2⟩

/-! ## Claim C1 -/

theorem level_error_threshold_nonneg (l : ℕ) : 0 ≤ level_error_threshold l := by
  unfold level_error_threshold
  positivity

theorem errorBound_nonneg (l : ℕ) : 0 ≤ errorBound l := by
  induction l with
  | zero => exact le_refl 0
  | succ n ih =>
    have := level_error_threshold_nonneg n
    unfold errorBound
    linarith

theorem errorBound_mono {a b : ℕ} (h : a ≤ b) : errorBound a ≤ errorBound b := by
  induction b with
  | zero =>
    cases Nat.le_zero.mp h
    exact le_refl _
  | succ n ih =>
    rcases Nat.lt_or_ge a (n + 1) with hlt | hge
    · have h1 := ih (Nat.lt_succ_iff.mp hlt)
      have h2 := level_error_threshold_nonneg n
      have h3 : errorBound (n + 1) =
          errorBound n + level_error_threshold n + 1 / 10 + 1 / 1000 := rfl
      rw [h3]
      linarith
    · cases Nat.le_antisymm h hge
      exact le_refl _

theorem errorBound_closed (l : ℕ) :
    errorBound l = (2 ^ l - 1) / 100 + l * (101 / 1000) := by
  induction l with
  | zero => norm_num [errorBound]
  | succ n ih =>
    unfold errorBound level_error_threshold
    rw [ih]
    push_cast
    ring

theorem errorBound_39_lt : errorBound 39 < f32_1e10 := by
  rw [errorBound_closed]
  norm_num [f32_1e10]

theorem simplify_group_error_bounds (O : Oracles) (vs : List AVertex)
    (idx : List ℕ) (tc : ℕ) (th : ℚ) (lk : List Bool) (hth : 0 ≤ th) :
    0 ≤ (simplify_group O vs idx tc th lk).error ∧
    (simplify_group O vs idx tc th lk).error ≤ th + 1 / 10 := by
  unfold simplify_group
  simp only
  split
  · set si := if (O.meshopt_simplify idx
        (vs.foldr (fun v acc => v.position.x :: v.position.y :: v.position.z :: acc)
          []) tc th).length > 4 * idx.length / 5 then
        O.meshopt_simplify_sloppy idx
          (vs.foldr (fun v acc => v.position.x :: v.position.y :: v.position.z :: acc)
            []) tc
      else O.meshopt_simplify idx
        (vs.foldr (fun v acc => v.position.x :: v.position.y :: v.position.z :: acc)
          []) tc th
    set ratio : ℚ := (si.length : ℚ) / (idx.length : ℚ) with hratio
    have hr : 0 ≤ ratio := div_nonneg (Nat.cast_nonneg _) (Nat.cast_nonneg _)
    have hm1 : max (1 - ratio) 0 ≤ 1 := max_le (by linarith) (by norm_num)
    have hm0 : 0 ≤ max (1 - ratio) 0 := le_max_right _ _
    have hprod : max (1 - ratio) 0 * th ≤ th := by
      nlinarith
    have hprod0 : 0 ≤ max (1 - ratio) 0 * th := mul_nonneg hm0 hth
    constructor
    · split <;> linarith
    · split <;> linarith
  · constructor
    · exact le_refl 0
    · linarith

theorem foldl_max_le (f : ℕ → ℚ) (l : List ℕ) (M : ℚ)
    (hf : ∀ c ∈ l, f c ≤ M) :
    ∀ b : ℚ, b ≤ M → l.foldl (fun m x => max m (f x)) b ≤ M := by
  induction l with
  | nil => exact fun b hb => hb
  | cons a t ih =>
    intro b hb
    exact ih (fun c hc => hf c (List.mem_cons_of_mem a hc)) _
      (max_le hb (hf a (List.mem_cons_self _ _)))

theorem group_parent_error_pos (O : Oracles) (v : List AVertex) (t : BState)
    (g : List ℕ) (level : ℕ) :
    1 / 1000 ≤ group_parent_error O v t g level := by
  have h1 : (0 : ℚ) ≤ group_max_child_error t g :=
    foldl_max_init_le (fun x => (t.clusters.getD x default).lod_error) g 0
  have h2 := (simplify_group_error_bounds O
    (weld_group v t g).group_vertices (weld_group v t g).group_indices
    (group_target_tris level (weld_group v t g).group_indices)
    (level_error_threshold level)
    (List.replicate (weld_group v t g).group_vertices.length false)
    (level_error_threshold_nonneg level)).1
  unfold group_parent_error group_simplified at *
  linarith

theorem group_parent_error_gt_member (O : Oracles) (v : List AVertex)
    (t : BState) (g : List ℕ) (level : ℕ) (c : ℕ) (hc : c ∈ g) :
    (t.clusters.getD c default).lod_error < group_parent_error O v t g level := by
  have h1 : (t.clusters.getD c default).lod_error ≤ group_max_child_error t g :=
    foldl_max_mem_le (fun x => (t.clusters.getD x default).lod_error) g c 0 hc
  have h2 := (simplify_group_error_bounds O
    (weld_group v t g).group_vertices (weld_group v t g).group_indices
    (group_target_tris level (weld_group v t g).group_indices)
    (level_error_threshold level)
    (List.replicate (weld_group v t g).group_vertices.length false)
    (level_error_threshold_nonneg level)).1
  unfold group_parent_error group_simplified at *
  linarith

theorem group_parent_error_le (O : Oracles) (v : List AVertex) (t : BState)
    (g : List ℕ) (level : ℕ) (Bl : ℚ) (hBl : 0 ≤ Bl)
    (hlods : ∀ c ∈ g, (t.clusters.getD c default).lod_error ≤ Bl) :
    group_parent_error O v t g level ≤
      Bl + level_error_threshold level + 1 / 10 + 1 / 1000 := by
  have h1 : group_max_child_error t g ≤ Bl :=
    foldl_max_le (fun x => (t.clusters.getD x default).lod_error) g Bl hlods 0 hBl
  have h2 := (simplify_group_error_bounds O
    (weld_group v t g).group_vertices (weld_group v t g).group_indices
    (group_target_tris level (weld_group v t g).group_indices)
    (level_error_threshold level)
    (List.replicate (weld_group v t g).group_vertices.length false)
    (level_error_threshold_nonneg level)).2
  unfold group_parent_error group_simplified at *
  linarith

theorem getD_mem {α : Type} [Inhabited α] (l : List α) (c : ℕ) (h : c < l.length) :
    l.getD c default ∈ l := by
  rw [List.getD_eq_getElem?_getD, List.getElem?_eq_getElem h]
  exact List.getElem_mem h

theorem patch_children_getD_lod (cl : List ClusterPacked) (g : List ℕ) (e : ℚ)
    (c : ℕ) :
    ((patch_children cl g e).getD c default).lod_error =
      (cl.getD c default).lod_error := by
  induction g generalizing cl with
  | nil => rfl
  | cons a t ih =>
    rw [patch_children_foldl, ih]
    split
    · rw [getD_set]
      split
      · rename_i h
        obtain ⟨rfl, -⟩ := h
        rfl
      · rfl
    · rfl

theorem patch_children_pres (bound e : ℚ) (cl : List ClusterPacked) (g : List ℕ)
    (h1 : ∀ x ∈ cl, clusterOK bound x)
    (h2 : ∀ c ∈ g, (cl.getD c default).lod_error < e)
    (h3 : e ≤ bound) :
    ∀ x ∈ patch_children cl g e, clusterOK bound x := by
  induction g generalizing cl with
  | nil => exact h1
  | cons a t ih =>
    rw [patch_children_foldl]
    split
    · by_cases hlen : a < cl.length
      · apply ih
        · intro x hx
          rcases List.mem_or_eq_of_mem_set hx with hx | rfl
          · exact h1 x hx
          · have hy := h1 _ (getD_mem cl a hlen)
            exact ⟨h2 a (List.mem_cons_self _ _), hy.2.1, hy.2.2⟩
        · intro c hc
          rw [getD_set]
          split
          · rename_i h
            obtain ⟨rfl, -⟩ := h
            exact h2 a (List.mem_cons_self _ _)
          · exact h2 c (List.mem_cons_of_mem a hc)
      · rw [List.set_eq_of_length_le (Nat.le_of_not_lt hlen)]
        exact ih cl h1 (fun c hc => h2 c (List.mem_cons_of_mem a hc))
    · exact ih cl h1 (fun c hc => h2 c (List.mem_cons_of_mem a hc))

theorem push_mem (O : Oracles) (v : List AVertex) (s : BState)
    (lv lt : List ℕ) (lod par : ℚ) (x : ClusterPacked)
    (hx : x ∈ (push_cluster_thread_safe O v s lv lt lod par).1.clusters) :
    x ∈ s.clusters ∨ (x.lod_error = lod ∧ x.parent_error = par) := by
  obtain ⟨y, hy, hl, hp⟩ := push_clusters_eq O v s lv lt lod par
  rw [hy] at hx
  rcases List.mem_append.mp hx with h | h
  · exact Or.inl h
  · obtain rfl := List.mem_singleton.mp h
    exact Or.inr ⟨hl, hp⟩

theorem push_parent_step_clusters (O : Oracles) (v : List AVertex)
    (g : List ℕ) (e : ℚ) (g2g : List ℕ) (acc : BState × List ℕ) (m : Meshlet) :
    (push_parent_step O v g e g2g acc m).1.clusters =
      patch_children
        (push_cluster_thread_safe O v acc.1
          (m.vertices.map (fun lv => g2g.getD lv 0))
          (m.indicesFlat.take (m.triangle_count * 3)) e f32_1e10).1.clusters
        g e := rfl

theorem push_parent_step_snd (O : Oracles) (v : List AVertex)
    (g : List ℕ) (e : ℚ) (g2g : List ℕ) (acc : BState × List ℕ) (m : Meshlet) :
    (push_parent_step O v g e g2g acc m).2 = acc.2 ++ [acc.1.clusters.length] := by
  rw [show (push_parent_step O v g e g2g acc m).2 = acc.2 ++
    [(push_cluster_thread_safe O v acc.1
      (m.vertices.map (fun lv => g2g.getD lv 0))
      (m.indicesFlat.take (m.triangle_count * 3)) e f32_1e10).2] from rfl,
    push_result_idx]

theorem push_parent_step_len (O : Oracles) (v : List AVertex)
    (g : List ℕ) (e : ℚ) (g2g : List ℕ) (acc : BState × List ℕ) (m : Meshlet) :
    (push_parent_step O v g e g2g acc m).1.clusters.length =
      acc.1.clusters.length + 1 := by
  rw [push_parent_step_clusters, patch_children_length, push_clusters_length]

theorem push_parent_step_levelInv (O : Oracles) (v : List AVertex) (s : BState)
    (g : List ℕ) (e : ℚ) (g2g : List ℕ) (bound : ℚ) (acc : BState × List ℕ)
    (m : Meshlet)
    (hg : ∀ c ∈ g, c < s.clusters.length)
    (hE1 : ∀ c ∈ g, (s.clusters.getD c default).lod_error < e)
    (hE2 : 0 ≤ e) (hE3 : e ≤ bound) (hb10 : bound < f32_1e10)
    (hinv : levelFoldInv s bound acc) :
    levelFoldInv s bound (push_parent_step O v g e g2g acc m) := by
  obtain ⟨hOK, hlods, hlen, hids⟩ := hinv
  set pv := m.vertices.map (fun lv => g2g.getD lv 0) with hpv
  set at3 := m.indicesFlat.take (m.triangle_count * 3) with hat3
  refine ⟨?_, ?_, ?_, ?_⟩
  · rw [push_parent_step_clusters]
    apply patch_children_pres bound e _ g _ _ hE3
    · intro x hx
      rcases push_mem O v acc.1 pv at3 e f32_1e10 x hx with hx | ⟨hl, hp⟩
      · exact hOK x hx
      · exact ⟨by rw [hl, hp]; linarith, by rw [hl]; exact hE2, by rw [hl]; exact hE3⟩
    · intro c hc
      have hcs : c < s.clusters.length := hg c hc
      rw [push_getD_lt O v acc.1 pv at3 e f32_1e10 c (by omega), hlods c hcs]
      exact hE1 c hc
  · intro c hc
    rw [push_parent_step_clusters, patch_children_getD_lod,
      push_getD_lt O v acc.1 pv at3 e f32_1e10 c (by omega)]
    exact hlods c hc
  · rw [push_parent_step_len]
    omega
  · intro i hi
    rw [push_parent_step_snd] at hi
    rw [push_parent_step_len]
    rcases List.mem_append.mp hi with h | h
    · have := hids i h
      omega
    · obtain rfl := List.mem_singleton.mp h
      omega

theorem process_fold_levelInv (O : Oracles) (v : List AVertex) (s : BState)
    (g : List ℕ) (e : ℚ) (g2g : List ℕ) (bound : ℚ)
    (hg : ∀ c ∈ g, c < s.clusters.length)
    (hE1 : ∀ c ∈ g, (s.clusters.getD c default).lod_error < e)
    (hE2 : 0 ≤ e) (hE3 : e ≤ bound) (hb10 : bound < f32_1e10)
    (ms : List Meshlet) :
    ∀ acc, levelFoldInv s bound acc →
      levelFoldInv s bound (ms.foldl (push_parent_step O v g e g2g) acc) := by
  induction ms with
  | nil => exact fun acc h => h
  | cons m t ih =>
    intro acc h
    exact ih _ (push_parent_step_levelInv O v s g e g2g bound acc m hg hE1 hE2 hE3
      hb10 h)

theorem fold_steps_len_mono (O : Oracles) (v : List AVertex)
    (g : List ℕ) (e : ℚ) (g2g : List ℕ) (ms : List Meshlet) :
    ∀ acc : BState × List ℕ, acc.1.clusters.length ≤
      ((ms.foldl (push_parent_step O v g e g2g) acc)).1.clusters.length := by
  induction ms with
  | nil => exact fun acc => le_refl _
  | cons m t ih =>
    intro acc
    rw [List.foldl_cons]
    have h1 := push_parent_step_len O v g e g2g acc m
    have h2 := ih (push_parent_step O v g e g2g acc m)
    omega

theorem process_group_levelInv (O : Oracles) (v : List AVertex) (s : BState)
    (level : ℕ) (g : List ℕ) (acc : BState × List ℕ)
    (hg : ∀ c ∈ g, c < s.clusters.length ∧
      (s.clusters.getD c default).lod_error ≤ errorBound level)
    (hb10 : errorBound (level + 1) < f32_1e10)
    (hinv : levelFoldInv s (errorBound (level + 1)) acc) :
    levelFoldInv s (errorBound (level + 1))
      ((process_group O v acc.1 g level).1,
        acc.2 ++ (process_group O v acc.1 g level).2) := by
  obtain ⟨hOK, hlods, hlen, hids⟩ := hinv
  set e := group_parent_error O v acc.1 g level with he
  have hg1 : ∀ c ∈ g, c < s.clusters.length := fun c hc => (hg c hc).1
  have hE1 : ∀ c ∈ g, (s.clusters.getD c default).lod_error < e := by
    intro c hc
    have h := group_parent_error_gt_member O v acc.1 g level c hc
    rw [← hlods c (hg1 c hc)]
    exact h
  have hE2 : (0 : ℚ) ≤ e := le_trans (by norm_num) (group_parent_error_pos O v acc.1 g level)
  have hE3 : e ≤ errorBound (level + 1) := by
    have h := group_parent_error_le O v acc.1 g level (errorBound level)
      (errorBound_nonneg level)
      (fun c hc => by
        rw [hlods c (hg1 c hc)]
        exact (hg c hc).2)
    have hb : errorBound (level + 1) =
        errorBound level + level_error_threshold level + 1 / 10 + 1 / 1000 := rfl
    rw [hb]
    linarith
  have hstart : levelFoldInv s (errorBound (level + 1)) (acc.1, []) := by
    refine ⟨hOK, hlods, hlen, ?_⟩
    intro i hi
    cases hi
  have hr := process_fold_levelInv O v s g e
    (weld_group v acc.1 g).group_to_global_map (errorBound (level + 1))
    hg1 hE1 hE2 hE3 hb10 (group_next_meshlets O v acc.1 g level) (acc.1, []) hstart
  have hrdef : process_group O v acc.1 g level =
      (group_next_meshlets O v acc.1 g level).foldl
        (push_parent_step O v g e (weld_group v acc.1 g).group_to_global_map)
        (acc.1, []) := rfl
  have hmono := fold_steps_len_mono O v g e
    (weld_group v acc.1 g).group_to_global_map
    (group_next_meshlets O v acc.1 g level) (acc.1, [])
  rw [hrdef]
  obtain ⟨hOK2, hlods2, hlen2, hids2⟩ := hr
  refine ⟨hOK2, hlods2, hlen2, ?_⟩
  intro i hi
  show i < ((group_next_meshlets O v acc.1 g level).foldl
    (push_parent_step O v g e (weld_group v acc.1 g).group_to_global_map)
    (acc.1, [])).1.clusters.length
  have h3 : acc.1.clusters.length ≤
      ((group_next_meshlets O v acc.1 g level).foldl
        (push_parent_step O v g e (weld_group v acc.1 g).group_to_global_map)
        (acc.1, [])).1.clusters.length := hmono
  rcases List.mem_append.mp hi with h | h
  · have h2 := hids i h
    omega
  · exact hids2 i h

theorem groups_fold_inv (O : Oracles) (v : List AVertex) (s : BState)
    (level : ℕ)
    (hb10 : errorBound (level + 1) < f32_1e10) (gs : List (List ℕ))
    (hgs : ∀ g ∈ gs, ∀ c ∈ g, c < s.clusters.length ∧
      (s.clusters.getD c default).lod_error ≤ errorBound level) :
    ∀ acc, levelFoldInv s (errorBound (level + 1)) acc →
      levelFoldInv s (errorBound (level + 1))
        (gs.foldl
          (fun (acc : BState × List ℕ) g =>
            let r := process_group O v acc.1 g level
            (r.1, acc.2 ++ r.2)) acc) := by
  induction gs with
  | nil => exact fun acc h => h
  | cons g t ih =>
    intro acc h
    exact ih (fun g2 hg2 => hgs g2 (List.mem_cons_of_mem g hg2)) _
      (process_group_levelInv O v s level g acc
        (hgs g (List.mem_cons_self _ _)) hb10 h)

theorem bfs_expand_mem (adj : Adjacency) (ci : List ℕ) (idx : ℕ)
    (visited : ℕ → Bool) (queue : List ℕ)
    (hq : ∀ q ∈ queue, q ∈ ci) :
    ∀ q ∈ (bfs_expand adj (fun i => ci.contains i) idx visited queue).2,
      q ∈ ci := by
  unfold bfs_expand
  suffices h : ∀ (ns : List ℕ) (st : (ℕ → Bool) × List ℕ), (∀ q ∈ st.2, q ∈ ci) →
      ∀ q ∈ (ns.foldl
        (fun (st : (ℕ → Bool) × List ℕ) nb =>
          if st.1 nb = false ∧ (fun i => ci.contains i) nb = true then
            (Function.update st.1 nb true, st.2 ++ [nb])
          else st) st).2, q ∈ ci by
    exact h _ _ hq
  intro ns
  induction ns with
  | nil => exact fun st h => h
  | cons nb t ih =>
    intro st h
    rw [List.foldl_cons]
    apply ih
    intro q hqm
    split at hqm
    · rename_i hcond
      rcases List.mem_append.mp hqm with h1 | h1
      · exact h q h1
      · obtain rfl := List.mem_singleton.mp h1
        exact List.mem_of_elem_eq_true hcond.2
    · exact h q hqm

theorem bfs_loop_mem (adj : Adjacency) (ci : List ℕ) (target : ℕ) :
    ∀ (fuel : ℕ) (queue : List ℕ) (visited : ℕ → Bool) (grp : List ℕ),
      (∀ q ∈ queue, q ∈ ci) → (∀ c ∈ grp, c ∈ ci) →
      ∀ c ∈ (bfs_loop adj (fun i => ci.contains i) target fuel queue visited
        grp).2, c ∈ ci := by
  intro fuel
  induction fuel with
  | zero =>
    intro queue visited grp hq hg c hc
    exact hg c hc
  | succ n ih =>
    intro queue visited grp hq hg c hc
    cases queue with
    | nil => exact hg c hc
    | cons idx rest =>
      have hgrp : ∀ c2 ∈ grp ++ [idx], c2 ∈ ci := by
        intro c2 hc2
        rcases List.mem_append.mp hc2 with h | h
        · exact hg c2 h
        · obtain rfl := List.mem_singleton.mp h
          exact hq c2 (List.mem_cons_self _ _)
      simp only [bfs_loop] at hc
      split at hc
      · exact hgrp c hc
      · exact ih _ _ _
          (bfs_expand_mem adj ci idx visited rest
            (fun q hqm => hq q (List.mem_cons_of_mem idx hqm)))
          hgrp c hc

theorem partition_clusters_mem (n : ℕ) (ci : List ℕ) (adj : Adjacency) (G : ℕ) :
    ∀ g ∈ partition_clusters n ci adj G, ∀ c ∈ g, c ∈ ci := by
  unfold partition_clusters
  suffices h : ∀ (starts : List ℕ) (st : (ℕ → Bool) × List (List ℕ)),
      (∀ s0 ∈ starts, s0 ∈ ci) →
      (∀ g ∈ st.2, ∀ c ∈ g, c ∈ ci) →
      ∀ g ∈ (starts.foldl
        (fun (st : (ℕ → Bool) × List (List ℕ)) start_idx =>
          if st.1 start_idx then st
          else
            let visited := Function.update st.1 start_idx true
            let res := bfs_loop adj (fun i => ci.contains i) G
              (ci.length + 1) [start_idx] visited []
            (res.1, if res.2.isEmpty then st.2 else st.2 ++ [res.2])) st).2,
        ∀ c ∈ g, c ∈ ci by
    exact fun g hg c hc => h ci _ (fun s0 hs0 => hs0) (by simp) g hg c hc
  intro starts
  induction starts with
  | nil => exact fun st hs h => h
  | cons a t ih =>
    intro st hs h
    rw [List.foldl_cons]
    apply ih _ (fun s0 hs0 => hs s0 (List.mem_cons_of_mem a hs0))
    by_cases hv : st.1 a = true
    · rw [if_pos hv]
      exact h
    · rw [if_neg hv]
      intro g hg c hc
      have hg2 : g ∈ (if (bfs_loop adj (fun i => ci.contains i) G
          (ci.length + 1) [a] (Function.update st.1 a true) []).2.isEmpty = true
          then st.2
          else st.2 ++ [(bfs_loop adj (fun i => ci.contains i) G
            (ci.length + 1) [a] (Function.update st.1 a true) []).2]) := hg
      split at hg2
      · exact h g hg2 c hc
      · rcases List.mem_append.mp hg2 with h1 | h1
        · exact h g h1 c hc
        · obtain rfl := List.mem_singleton.mp h1
          exact bfs_loop_mem adj ci G (ci.length + 1) [a] _ []
            (fun q hqm => by
              obtain rfl := List.mem_singleton.mp hqm
              exact hs q (List.mem_cons_self _ _))
            (fun c2 hc2 => by cases hc2) c hc

theorem build_next_level_inv (O : Oracles) (v : List AVertex) (s : BState)
    (current : List ℕ) (level : ℕ)
    (hsched : ∀ (lvl : ℕ) (gs : List (List ℕ)) (g : List ℕ),
      g ∈ O.sched lvl gs → g ∈ gs)
    (hInv : buildInv s current (errorBound level))
    (hb10 : errorBound (level + 1) < f32_1e10) :
    buildInv (build_next_level O v s current level).1
      (build_next_level O v s current level).2 (errorBound (level + 1)) := by
  obtain ⟨hOK, hcur⟩ := hInv
  have hbnl : build_next_level O v s current level =
      (O.sched level
        (partition_clusters s.clusters.length current
          (build_adjacency s.clusters.length current s.v_indices
            (s.clusters.map (fun c => (c.vertex_offset, c.counts % 256))))
          (if level < 2 then 8 else 12))).foldl
        (fun (acc : BState × List ℕ) g =>
          let r := process_group O v acc.1 g level
          (r.1, acc.2 ++ r.2)) (s, []) := rfl
  have hgs : ∀ g ∈ O.sched level
      (partition_clusters s.clusters.length current
        (build_adjacency s.clusters.length current s.v_indices
          (s.clusters.map (fun c => (c.vertex_offset, c.counts % 256))))
        (if level < 2 then 8 else 12)), ∀ c ∈ g,
      c < s.clusters.length ∧
      (s.clusters.getD c default).lod_error ≤ errorBound level := by
    intro g hg c hc
    have hcin : c ∈ current :=
      partition_clusters_mem s.clusters.length current _ _ g (hsched _ _ g hg) c hc
    have hclt : c < s.clusters.length := hcur c hcin
    exact ⟨hclt, (hOK _ (getD_mem s.clusters c hclt)).2.2⟩
  have hstart : levelFoldInv s (errorBound (level + 1)) (s, []) := by
    refine ⟨?_, fun c _ => rfl, le_refl _, ?_⟩
    · intro x hx
      obtain ⟨h1, h2, h3⟩ := hOK x hx
      have hm : errorBound level ≤ errorBound (level + 1) :=
        errorBound_mono (Nat.le_succ level)
      exact ⟨h1, h2, le_trans h3 hm⟩
    · intro i hi
      cases hi
  have hr := groups_fold_inv O v s level hb10 _ hgs (s, []) hstart
  rw [hbnl]
  exact ⟨hr.1, hr.2.2.2⟩

theorem generate_level0_inv (O : Oracles) (v : List AVertex) (indices : List ℕ) :
    buildInv (generate_level0 O v ⟨[], [], []⟩ indices).1
      (generate_level0 O v ⟨[], [], []⟩ indices).2 (errorBound 0) := by
  have h10 : (0 : ℚ) < f32_1e10 := by norm_num [f32_1e10]
  suffices h : ∀ (ms : List Meshlet) (acc : BState × List ℕ),
      buildInv acc.1 acc.2 (errorBound 0) →
      buildInv (ms.foldl
        (fun (acc : BState × List ℕ) m =>
          let actual_indices := m.indicesFlat.take (m.triangle_count * 3)
          let r := push_cluster_thread_safe O v acc.1 m.vertices actual_indices
            0 f32_1e10
          (r.1, acc.2 ++ [r.2])) acc).1
        (ms.foldl
          (fun (acc : BState × List ℕ) m =>
            let actual_indices := m.indicesFlat.take (m.triangle_count * 3)
            let r := push_cluster_thread_safe O v acc.1 m.vertices actual_indices
              0 f32_1e10
            (r.1, acc.2 ++ [r.2])) acc).2 (errorBound 0) by
    have hinit : buildInv (⟨[], [], []⟩ : BState) [] (errorBound 0) :=
      And.intro (fun x hx => nomatch hx) (fun c hc => nomatch hc)
    exact h (O.build_meshlets indices v.length 64 124) ⟨⟨[], [], []⟩, []⟩ hinit
  intro ms
  induction ms with
  | nil => exact fun acc h => h
  | cons m t ih =>
    intro acc h
    rw [List.foldl_cons]
    apply ih
    constructor
    · intro x hx
      rcases push_mem O v acc.1 m.vertices (m.indicesFlat.take (m.triangle_count * 3))
          0 f32_1e10 x hx with hx2 | ⟨hl, hp⟩
      · exact h.1 x hx2
      · exact ⟨by rw [hl, hp]; exact h10, hl.symm.le, hl.le⟩
    · intro c hc
      have hlen := push_clusters_length O v acc.1 m.vertices
        (m.indicesFlat.take (m.triangle_count * 3)) 0 f32_1e10
      show c < (push_cluster_thread_safe O v acc.1 m.vertices
        (m.indicesFlat.take (m.triangle_count * 3)) 0 f32_1e10).1.clusters.length
      rcases List.mem_append.mp hc with h1 | h1
      · have h2 := h.2 c h1
        omega
      · obtain rfl := List.mem_singleton.mp h1
        rw [push_result_idx]
        omega

theorem build_loop_inv (O : Oracles) (v : List AVertex)
    (hsched : ∀ (lvl : ℕ) (gs : List (List ℕ)) (g : List ℕ),
      g ∈ O.sched lvl gs → g ∈ gs) :
    ∀ (fuel : ℕ) (s : BState) (current : List ℕ) (level : ℕ),
      buildInv s current (errorBound level) →
      errorBound (level + (build_loop O v fuel s current level).2.2) < f32_1e10 →
      ∀ x ∈ (build_loop O v fuel s current level).1.clusters,
        x.lod_error < x.parent_error := by
  intro fuel
  induction fuel with
  | zero =>
    intro s current level hInv hB x hx
    exact (hInv.1 x hx).1
  | succ n ih =>
    intro s current level hInv hB x hx
    by_cases hlen : current.length > 1
    · by_cases hnext :
        (build_next_level O v s current level).2.length ≥ current.length
      · simp only [build_loop, if_pos hlen, if_pos hnext] at hx hB
        have hb10 : errorBound (level + 1) < f32_1e10 := hB
        exact ((build_next_level_inv O v s current level hsched hInv hb10).1 x
          hx).1
      · simp only [build_loop, if_pos hlen, if_neg hnext] at hx hB
        have heq : level + ((build_loop O v n
            (build_next_level O v s current level).1
            (build_next_level O v s current level).2 (level + 1)).2.2 + 1) =
            (level + 1) + (build_loop O v n
            (build_next_level O v s current level).1
            (build_next_level O v s current level).2 (level + 1)).2.2 := by
          omega
        rw [heq] at hB
        have hb10 : errorBound (level + 1) < f32_1e10 := by
          have hm : errorBound (level + 1) ≤ errorBound ((level + 1) +
              (build_loop O v n (build_next_level O v s current level).1
                (build_next_level O v s current level).2 (level + 1)).2.2) :=
            errorBound_mono (Nat.le_add_right _ _)
          linarith
        exact ih (build_next_level O v s current level).1
          (build_next_level O v s current level).2 (level + 1)
          (build_next_level_inv O v s current level hsched hInv hb10) hB x hx
    · simp only [build_loop, if_neg hlen] at hx
      exact (hInv.1 x hx).1

/-- C1: after a completed build, every cluster in the produced asset
satisfies `lod_error < parent_error` strictly, where `parent_error` is
either a finite patched value or the `1e10` sentinel standing for +∞ (the
strict gap is enforced by the `+ 0.001` bump even when the simplifier
reports zero error, since the proof only uses that the estimated error is
nonnegative). Hypotheses: the merge scheduler only reorders the
partitioner's groups (the `rayon` completion order is a permutation), and
the build performs at most 39 levels — beyond that the exponentially
growing error threshold `0.01 * 2^level` could push an accumulated
`lod_error` past the `1e10` sentinel used for "+∞" `parent_error`, and
the invariant as stated would no longer be meaningful in `f32`. -/
theorem C1_monotone_error (O : Oracles) (vertices : List AVertex)
    (indices : List ℕ)
    (hsched : ∀ (lvl : ℕ) (gs : List (List ℕ)) (g : List ℕ),
      g ∈ O.sched lvl gs → g ∈ gs)
    (hlv : (build O vertices indices).levels ≤ 39) :
    ∀ x ∈ (build O vertices indices).state.clusters,
      x.lod_error < x.parent_error := by
  have hg0 := generate_level0_inv O vertices indices
  have hstate : (build O vertices indices).state =
      (build_loop O vertices (generate_level0 O vertices ⟨[], [], []⟩ indices).2.length
        (generate_level0 O vertices ⟨[], [], []⟩ indices).1
        (generate_level0 O vertices ⟨[], [], []⟩ indices).2 0).1 := rfl
  have hlev : (build O vertices indices).levels =
      (build_loop O vertices (generate_level0 O vertices ⟨[], [], []⟩ indices).2.length
        (generate_level0 O vertices ⟨[], [], []⟩ indices).1
        (generate_level0 O vertices ⟨[], [], []⟩ indices).2 0).2.2 := rfl
  have hB : errorBound (0 + (build_loop O vertices
      (generate_level0 O vertices ⟨[], [], []⟩ indices).2.length
      (generate_level0 O vertices ⟨[], [], []⟩ indices).1
      (generate_level0 O vertices ⟨[], [], []⟩ indices).2 0).2.2) < f32_1e10 := by
    have h1 : errorBound (0 + (build_loop O vertices
        (generate_level0 O vertices ⟨[], [], []⟩ indices).2.length
        (generate_level0 O vertices ⟨[], [], []⟩ indices).1
        (generate_level0 O vertices ⟨[], [], []⟩ indices).2 0).2.2) ≤
        errorBound 39 := by
      apply errorBound_mono
      rw [hlev] at hlv
      omega
    linarith [errorBound_39_lt]
  intro x hx
  rw [hstate] at hx
  exact build_loop_inv O vertices hsched _ _ _ 0 hg0 hB x hx

/-- C1 witness: the trivial oracle (whose scheduler is the identity) on the
empty mesh builds zero levels. -/
theorem C1_witness :
    (∀ (lvl : ℕ) (gs : List (List ℕ)) (g : List ℕ),
      g ∈ O0.sched lvl gs → g ∈ gs) ∧
    (build O0 [] []).levels ≤ 39 ∧
    ∀ x ∈ (build O0 [] []).state.clusters, x.lod_error < x.parent_error :=
  ⟨fun _ _ _ h => h, by decide,
    C1_monotone_error O0 [] [] (fun _ _ _ h => h) (by decide)⟩

/-! ## C4: the CSR adjacency graph -/

theorem dedup_consecutive_mem (x : ℕ × ℕ) :
    ∀ l : List (ℕ × ℕ), x ∈ dedup_consecutive l ↔ x ∈ l := by
  intro l
  induction l with
  | nil => simp [dedup_consecutive]
  | cons a t ih =>
    cases t with
    | nil => simp [dedup_consecutive]
    | cons b t2 =>
      have hstep : dedup_consecutive (a :: b :: t2) =
          if a = b then dedup_consecutive (b :: t2)
          else a :: dedup_consecutive (b :: t2) := rfl
      rw [hstep]
      by_cases hab : a = b
      · rw [if_pos hab, ih]
        subst hab
        simp only [List.mem_cons]
        tauto
      · rw [if_neg hab]
        simp only [List.mem_cons, ih]

theorem adjacency_entries_cons (g : ℕ) (t mvi : List ℕ) (cvo : List (ℕ × ℕ)) :
    adjacency_entries (g :: t) mvi cvo =
      ((List.range (cvo.getD g (0, 0)).2).map
        (fun i => (mvi.getD ((cvo.getD g (0, 0)).1 + i) 0, g))) ++
        adjacency_entries t mvi cvo := rfl

theorem adjacency_entries_snd (mvi : List ℕ) (cvo : List (ℕ × ℕ)) (v2 c : ℕ) :
    ∀ ci : List ℕ, (v2, c) ∈ adjacency_entries ci mvi cvo → c ∈ ci := by
  intro ci
  induction ci with
  | nil => intro h; simp [adjacency_entries] at h
  | cons g t ih =>
    intro h
    rw [adjacency_entries_cons] at h
    rcases List.mem_append.mp h with h' | h'
    · obtain ⟨i, -, hi⟩ := List.mem_map.mp h'
      cases hi
      exact List.mem_cons_self _ _
    · exact List.mem_cons_of_mem g (ih h')

theorem consecutive_edges_shared :
    ∀ (l : List (ℕ × ℕ)) (e : ℕ × ℕ), e ∈ consecutive_edges l →
      e.1 < e.2 ∧ ∃ v2, (v2, e.1) ∈ l ∧ (v2, e.2) ∈ l := by
  intro l
  induction l with
  | nil => intro e he; simp [consecutive_edges] at he
  | cons a t ih =>
    cases t with
    | nil => intro e he; simp [consecutive_edges] at he
    | cons b t2 =>
      intro e he
      rcases List.mem_append.mp he with he' | he'
      · by_cases hc : a.1 = b.1 ∧ a.2 ≠ b.2
        · rw [if_pos hc] at he'
          rcases List.mem_singleton.mp he' with rfl
          refine ⟨min_lt_max.mpr hc.2, a.1, ?_, ?_⟩
          · rcases le_total a.2 b.2 with hle | hle
            · have h1 : ((a.1, min a.2 b.2) : ℕ × ℕ) = a := by
                rw [min_eq_left hle]
              rw [h1]; exact List.mem_cons_self a _
            · have h1 : ((a.1, min a.2 b.2) : ℕ × ℕ) = b := by
                rw [min_eq_right hle, hc.1]
              rw [h1]; exact List.mem_cons_of_mem a (List.mem_cons_self b t2)
          · rcases le_total a.2 b.2 with hle | hle
            · have h1 : ((a.1, max a.2 b.2) : ℕ × ℕ) = b := by
                rw [max_eq_right hle, hc.1]
              rw [h1]; exact List.mem_cons_of_mem a (List.mem_cons_self b t2)
            · have h1 : ((a.1, max a.2 b.2) : ℕ × ℕ) = a := by
                rw [max_eq_left hle]
              rw [h1]; exact List.mem_cons_self a _
        · rw [if_neg hc] at he'
          simp at he'
      · obtain ⟨hlt, v2, h1, h2⟩ := ih e he'
        exact ⟨hlt, v2, List.mem_cons_of_mem a h1, List.mem_cons_of_mem a h2⟩

theorem consecutive_edges_of_adj :
    ∀ (l : List (ℕ × ℕ)) (k : ℕ), k + 1 < l.length →
      (l.getD k (0, 0)).1 = (l.getD (k + 1) (0, 0)).1 →
      (l.getD k (0, 0)).2 ≠ (l.getD (k + 1) (0, 0)).2 →
      (min (l.getD k (0, 0)).2 (l.getD (k + 1) (0, 0)).2,
        max (l.getD k (0, 0)).2 (l.getD (k + 1) (0, 0)).2) ∈
        consecutive_edges l := by
  intro l
  induction l with
  | nil => intro k hk _ _; simp at hk
  | cons a t ih =>
    cases t with
    | nil => intro k hk _ _; simp at hk
    | cons b t2 =>
      intro k hk h1 h2
      match k with
      | 0 =>
        simp only [List.getD_cons_zero, List.getD_cons_succ] at h1 h2 ⊢
        refine List.mem_append.mpr (Or.inl ?_)
        rw [if_pos ⟨h1, h2⟩]
        exact List.mem_singleton.mpr rfl
      | k2 + 1 =>
        simp only [List.getD_cons_succ] at h1 h2 ⊢
        refine List.mem_append.mpr (Or.inr ?_)
        exact ih k2 (by simp only [List.length_cons] at hk ⊢; omega) h1 h2

theorem final_edges_mem (ci mvi : List ℕ) (cvo : List (ℕ × ℕ)) (e : ℕ × ℕ) :
    e ∈ final_edges ci mvi cvo ↔
      e ∈ consecutive_edges (sorted_entries ci mvi cvo) := by
  unfold final_edges
  rw [dedup_consecutive_mem]
  exact List.mem_insertionSort edgeLE

theorem final_edges_shared (ci mvi : List ℕ) (cvo : List (ℕ × ℕ)) (e : ℕ × ℕ)
    (he : e ∈ final_edges ci mvi cvo) :
    e.1 < e.2 ∧ ∃ v2, (v2, e.1) ∈ adjacency_entries ci mvi cvo ∧
      (v2, e.2) ∈ adjacency_entries ci mvi cvo := by
  have h1 : e ∈ consecutive_edges (sorted_entries ci mvi cvo) :=
    (final_edges_mem ci mvi cvo e).mp he
  obtain ⟨hlt, v2, ha, hb⟩ := consecutive_edges_shared _ e h1
  exact ⟨hlt, v2, (List.mem_insertionSort entryLE).mp ha,
    (List.mem_insertionSort entryLE).mp hb⟩

theorem final_edges_bounds (n : ℕ) (ci mvi : List ℕ) (cvo : List (ℕ × ℕ))
    (h : ∀ g ∈ ci, g < n) (e : ℕ × ℕ) (he : e ∈ final_edges ci mvi cvo) :
    e.1 < e.2 ∧ e.2 < n := by
  obtain ⟨hlt, v2, _, hb⟩ := final_edges_shared ci mvi cvo e he
  exact ⟨hlt, h _ (adjacency_entries_snd mvi cvo v2 e.2 ci hb)⟩

theorem getD_append_left2 {α : Type} (l l2 : List α) (i : ℕ) (d : α)
    (h : i < l.length) : (l ++ l2).getD i d = l.getD i d := by
  simp [List.getD_eq_getElem?_getD, List.getElem?_append, h]

theorem getD_append_length2 {α : Type} (l : List α) (a : α) (d : α) :
    (l ++ [a]).getD l.length d = a := by
  induction l with
  | nil => rfl
  | cons x t ih =>
    simp only [List.cons_append, List.length_cons, List.getD_cons_succ]
    exact ih

theorem partners_append (u v : List (ℕ × ℕ)) (c : ℕ) :
    partners (u ++ v) c = partners u c ++ partners v c := by
  simp [partners, List.filter_append]

theorem partners_singleton (e : ℕ × ℕ) (c : ℕ) :
    partners [e] c =
      if e.1 = c ∨ e.2 = c then [if e.1 = c then e.2 else e.1] else [] := by
  by_cases hc : e.1 = c ∨ e.2 = c
  · simp [partners, hc]
  · simp [partners, hc]

theorem partners_ne_nil_lt (n : ℕ) (q : List (ℕ × ℕ))
    (hq : ∀ e ∈ q, e.1 < e.2 ∧ e.2 < n) (c : ℕ)
    (hl : 0 < (partners q c).length) : c < n := by
  obtain ⟨x, hx⟩ := List.exists_mem_of_length_pos hl
  simp only [partners, List.mem_map, List.mem_filter, decide_eq_true_eq] at hx
  obtain ⟨e, ⟨heq, hinc⟩, -⟩ := hx
  obtain ⟨h3, h4⟩ := hq e heq
  rcases hinc with h5 | h5 <;> omega

theorem partners_mem (q : List (ℕ × ℕ)) (hq : ∀ e ∈ q, e.1 ≠ e.2) (c x : ℕ) :
    x ∈ partners q c ↔ ((c, x) ∈ q ∨ (x, c) ∈ q) := by
  simp only [partners, List.mem_map, List.mem_filter, decide_eq_true_eq]
  constructor
  · rintro ⟨⟨e1, e2⟩, ⟨heq, hinc⟩, hval⟩
    simp only at hinc hval
    by_cases h1 : e1 = c
    · rw [if_pos h1] at hval
      subst h1; subst hval
      exact Or.inl heq
    · rw [if_neg h1] at hval
      rcases hinc with h2 | h2
      · exact absurd h2 h1
      · subst h2; subst hval
        exact Or.inr heq
  · rintro (hm | hm)
    · exact ⟨(c, x), ⟨hm, Or.inl rfl⟩, by simp⟩
    · refine ⟨(x, c), ⟨hm, Or.inr rfl⟩, ?_⟩
      have hxc : x ≠ c := fun hxx => hq (x, c) hm (by simp [hxx])
      show (if x = c then c else x) = x
      rw [if_neg hxc]

theorem partners_cons (a : ℕ × ℕ) (t : List (ℕ × ℕ)) (c : ℕ) :
    partners (a :: t) c =
      if a.1 = c ∨ a.2 = c then (if a.1 = c then a.2 else a.1) :: partners t c
      else partners t c := by
  by_cases h : a.1 = c ∨ a.2 = c
  · simp [partners, List.filter_cons, h]
  · simp [partners, List.filter_cons, h]

theorem partners_length (c : ℕ) :
    ∀ q : List (ℕ × ℕ), (∀ e ∈ q, e.1 ≠ e.2) →
      (partners q c).length = q.countP (fun e => decide (e.1 = c)) +
        q.countP (fun e => decide (e.2 = c)) := by
  intro q
  induction q with
  | nil => intro _; rfl
  | cons a t ih =>
    intro hq
    have hat : ∀ e ∈ t, e.1 ≠ e.2 := fun e he => hq e (List.mem_cons_of_mem a he)
    have hane : a.1 ≠ a.2 := hq a (List.mem_cons_self a t)
    have ih2 := ih hat
    rw [partners_cons, List.countP_cons, List.countP_cons]
    by_cases h1 : a.1 = c <;> by_cases h2 : a.2 = c
    · exact absurd (h1.trans h2.symm) hane
    · rw [if_pos (Or.inl h1)]
      simp [ih2, h1, h2]
      omega
    · rw [if_pos (Or.inr h2)]
      simp [ih2, h1, h2]
      omega
    · rw [if_neg (by tauto)]
      simp [ih2, h1, h2]

theorem degree_fold (j : ℕ) :
    ∀ (E : List (ℕ × ℕ)) (f : ℕ → ℕ),
      (E.foldl (fun f2 e => bumpAt (bumpAt f2 (e.1 + 1)) (e.2 + 1)) f) j =
        f j + E.countP (fun e => decide (e.1 + 1 = j)) +
          E.countP (fun e => decide (e.2 + 1 = j)) := by
  intro E
  induction E with
  | nil => intro f; simp
  | cons a t ih =>
    intro f
    rw [List.foldl_cons, ih]
    simp only [List.countP_cons]
    have hb : ∀ (g : ℕ → ℕ) (i : ℕ), bumpAt g i j = g j + if i = j then 1 else 0 := by
      intro g i
      by_cases hij : i = j
      · subst hij; simp [bumpAt]
      · simp [bumpAt, Function.update_noteq (Ne.symm hij), hij]
    rw [hb, hb]
    by_cases h1 : a.1 + 1 = j <;> by_cases h2 : a.2 + 1 = j <;>
      simp [h1, h2] <;> omega

theorem degree_array_eq (n : ℕ) (E : List (ℕ × ℕ))
    (hE : ∀ e ∈ E, e.1 < e.2 ∧ e.2 < n) (c : ℕ) :
    degree_array E (c + 1) = (partners E c).length := by
  have hne : ∀ e ∈ E, e.1 ≠ e.2 := fun e he => (hE e he).1.ne
  rw [partners_length c E hne]
  unfold degree_array
  rw [degree_fold]
  have hc1 : E.countP (fun e => decide (e.1 + 1 = c + 1)) =
      E.countP (fun e => decide (e.1 = c)) :=
    List.countP_congr (fun e _ => by simp)
  have hc2 : E.countP (fun e => decide (e.2 + 1 = c + 1)) =
      E.countP (fun e => decide (e.2 = c)) :=
    List.countP_congr (fun e _ => by simp)
  rw [hc1, hc2]
  omega

theorem degree_array_beyond (n : ℕ) (E : List (ℕ × ℕ))
    (hE : ∀ e ∈ E, e.1 < e.2 ∧ e.2 < n) (k : ℕ) (hk : n < k) :
    degree_array E k = 0 := by
  unfold degree_array
  rw [degree_fold]
  have h1 : E.countP (fun e => decide (e.1 + 1 = k)) = 0 :=
    List.countP_eq_zero.mpr (fun e he => by
      obtain ⟨ha, hb⟩ := hE e he
      simp only [decide_eq_true_eq]
      omega)
  have h2 : E.countP (fun e => decide (e.2 + 1 = k)) = 0 :=
    List.countP_eq_zero.mpr (fun e he => by
      obtain ⟨ha, hb⟩ := hE e he
      simp only [decide_eq_true_eq]
      omega)
  rw [h1, h2]

theorem offsets_loop_eq (f : ℕ → ℕ) :
    ∀ i k, offsets_loop f i k = if k ≤ i then sumLe f k else f k := by
  intro i
  induction i with
  | zero =>
    intro k
    match k with
    | 0 => rfl
    | k + 1 => simp [offsets_loop]
  | succ i ih =>
    intro k
    have heq : offsets_loop f (i + 1) k =
        Function.update (offsets_loop f i) (i + 1)
          (offsets_loop f i (i + 1) + offsets_loop f i i) k := rfl
    rw [heq]
    by_cases hk : k = i + 1
    · subst hk
      rw [Function.update_same, ih (i + 1), ih i,
        if_neg (by omega), if_pos (le_refl i), if_pos (le_refl (i + 1))]
      show f (i + 1) + sumLe f i = sumLe f i + f (i + 1)
      omega
    · rw [Function.update_noteq hk, ih k]
      by_cases h2 : k ≤ i
      · rw [if_pos h2, if_pos (by omega)]
      · rw [if_neg h2, if_neg (by omega)]

theorem csr_offsets_closed (n : ℕ) (E : List (ℕ × ℕ)) (k : ℕ) (hk : k ≤ n) :
    csr_offsets n E k = sumLe (degree_array E) k := by
  unfold csr_offsets
  rw [offsets_loop_eq, if_pos hk]

theorem csr_offsets_beyond (n : ℕ) (E : List (ℕ × ℕ)) (k : ℕ) (hk : n < k) :
    csr_offsets n E k = degree_array E k := by
  unfold csr_offsets
  rw [offsets_loop_eq, if_neg (by omega)]

theorem sumLe_mono (f : ℕ → ℕ) (a b : ℕ) (h : a ≤ b) : sumLe f a ≤ sumLe f b := by
  induction b with
  | zero =>
    have h0 : a = 0 := Nat.le_zero.mp h
    subst h0; exact le_refl _
  | succ b ih =>
    by_cases hab : a = b + 1
    · subst hab; exact le_refl _
    · have h2 : a ≤ b := by omega
      calc sumLe f a ≤ sumLe f b := ih h2
        _ ≤ sumLe f b + f (b + 1) := Nat.le_add_right _ _
        _ = sumLe f (b + 1) := rfl

theorem csr_offsets_seg (n : ℕ) (E : List (ℕ × ℕ))
    (hE : ∀ e ∈ E, e.1 < e.2 ∧ e.2 < n) (c : ℕ) (hc : c < n) :
    csr_offsets n E (c + 1) = csr_offsets n E c + (partners E c).length := by
  rw [csr_offsets_closed n E (c + 1) (by omega), csr_offsets_closed n E c (by omega)]
  have h1 : sumLe (degree_array E) (c + 1) =
      sumLe (degree_array E) c + degree_array E (c + 1) := rfl
  rw [h1, degree_array_eq n E hE c]

theorem csr_offsets_mono (n : ℕ) (E : List (ℕ × ℕ)) (c d : ℕ) (h1 : c ≤ d)
    (h2 : d ≤ n) : csr_offsets n E c ≤ csr_offsets n E d := by
  rw [csr_offsets_closed n E c (le_trans h1 h2), csr_offsets_closed n E d h2]
  exact sumLe_mono _ c d h1

theorem seg_disjoint (n : ℕ) (E : List (ℕ × ℕ))
    (hE : ∀ e ∈ E, e.1 < e.2 ∧ e.2 < n) (c d i j : ℕ) (hc : c < n) (hd : d < n)
    (hcd : c ≠ d) (hi : i < (partners E c).length)
    (hj : j < (partners E d).length) :
    csr_offsets n E c + i ≠ csr_offsets n E d + j := by
  rcases Nat.lt_or_ge c d with h | h
  · have e1 : csr_offsets n E (c + 1) = csr_offsets n E c + (partners E c).length :=
      csr_offsets_seg n E hE c hc
    have e2 : csr_offsets n E (c + 1) ≤ csr_offsets n E d :=
      csr_offsets_mono n E (c + 1) d h (by omega)
    omega
  · have h3 : d < c := by omega
    have e1 : csr_offsets n E (d + 1) = csr_offsets n E d + (partners E d).length :=
      csr_offsets_seg n E hE d hd
    have e2 : csr_offsets n E (d + 1) ≤ csr_offsets n E c :=
      csr_offsets_mono n E (d + 1) c h3 (by omega)
    omega

theorem fill_step_inv (n : ℕ) (E : List (ℕ × ℕ))
    (hE : ∀ e ∈ E, e.1 < e.2 ∧ e.2 < n) (p : List (ℕ × ℕ)) (e : ℕ × ℕ)
    (rest : List (ℕ × ℕ)) (hsplit : E = p ++ e :: rest)
    (st : (ℕ → ℕ) × (ℕ → ℕ)) (hinv : fillInv (csr_offsets n E) p st) :
    fillInv (csr_offsets n E) (p ++ [e]) (fill_step st e) := by
  obtain ⟨hcur, hrec⟩ := hinv
  have he : e ∈ E := by
    rw [hsplit]; exact List.mem_append_right p (List.mem_cons_self e rest)
  obtain ⟨hab, hbn⟩ := hE e he
  have han : e.1 < n := lt_trans hab hbn
  have hne : e.1 ≠ e.2 := hab.ne
  have hsplit2 : E = (p ++ [e]) ++ rest := by rw [hsplit]; simp
  have hsubE : ∀ x ∈ p ++ [e], x ∈ E := fun x hx => by
    rw [hsplit2]; exact List.mem_append_left rest hx
  have hEp2 : ∀ x ∈ p ++ [e], x.1 < x.2 ∧ x.2 < n := fun x hx => hE x (hsubE x hx)
  have hprefix : ∀ c, (partners (p ++ [e]) c).length + (partners rest c).length =
      (partners E c).length := by
    intro c
    have h2 : partners E c = partners (p ++ [e]) c ++ partners rest c := by
      rw [hsplit2, partners_append]
    rw [h2, List.length_append]
  have hple : ∀ c, (partners (p ++ [e]) c).length ≤ (partners E c).length := by
    intro c; have := hprefix c; omega
  have hpa : partners (p ++ [e]) e.1 = partners p e.1 ++ [e.2] := by
    rw [partners_append, partners_singleton, if_pos (Or.inl rfl), if_pos rfl]
  have hpb : partners (p ++ [e]) e.2 = partners p e.2 ++ [e.1] := by
    rw [partners_append, partners_singleton, if_pos (Or.inr rfl), if_neg hne]
  have hpo : ∀ c, c ≠ e.1 → c ≠ e.2 → partners (p ++ [e]) c = partners p c := by
    intro c h1 h2
    rw [partners_append, partners_singleton,
      if_neg (by rintro (h | h); exacts [h1 h.symm, h2 h.symm]), List.append_nil]
  have hca : st.1 e.1 = csr_offsets n E e.1 + (partners p e.1).length := hcur e.1
  have hcb : st.1 e.2 = csr_offsets n E e.2 + (partners p e.2).length := hcur e.2
  have hla : (partners p e.1).length < (partners E e.1).length := by
    have h1 := hple e.1
    rw [hpa, List.length_append] at h1
    simp only [List.length_singleton] at h1
    omega
  have hlb : (partners p e.2).length < (partners E e.2).length := by
    have h1 := hple e.2
    rw [hpb, List.length_append] at h1
    simp only [List.length_singleton] at h1
    omega
  have hstep : fill_step st e =
      (bumpAt (bumpAt st.1 e.1) e.2,
        Function.update (Function.update st.2 (st.1 e.1) e.2)
          (bumpAt st.1 e.1 e.2) e.1) := rfl
  have hc1b : bumpAt st.1 e.1 e.2 = st.1 e.2 := by
    unfold bumpAt
    exact Function.update_noteq (Ne.symm hne) _ _
  rw [hstep, hc1b]
  constructor
  · intro c
    show bumpAt (bumpAt st.1 e.1) e.2 c = _
    by_cases h1 : c = e.1
    · subst h1
      have hv : bumpAt (bumpAt st.1 e.1) e.2 e.1 = st.1 e.1 + 1 := by
        simp [bumpAt, Function.update_apply, hne]
      rw [hv, hca, hpa, List.length_append, List.length_singleton]
      omega
    · by_cases h2 : c = e.2
      · subst h2
        have hv : bumpAt (bumpAt st.1 e.1) e.2 e.2 = st.1 e.2 + 1 := by
          simp [bumpAt, Function.update_apply, h1]
        rw [hv, hcb, hpb, List.length_append, List.length_singleton]
        omega
      · have hv : bumpAt (bumpAt st.1 e.1) e.2 c = st.1 c := by
          simp [bumpAt, Function.update_apply, h1, h2]
        rw [hv, hcur c, hpo c h1 h2]
  · intro c i hi
    show Function.update (Function.update st.2 (st.1 e.1) e.2) (st.1 e.2) e.1
        (csr_offsets n E c + i) = _
    have hcn : c < n := partners_ne_nil_lt n (p ++ [e]) hEp2 c (by omega)
    by_cases h1 : c = e.1
    · subst h1
      rw [hpa] at hi ⊢
      rw [List.length_append, List.length_singleton] at hi
      have hiE : i < (partners E e.1).length := by
        have h3 := hple e.1
        rw [hpa, List.length_append, List.length_singleton] at h3
        omega
      have hneb : csr_offsets n E e.1 + i ≠ st.1 e.2 := by
        rw [hcb]
        exact seg_disjoint n E hE e.1 e.2 i (partners p e.2).length han hbn hne
          hiE hlb
      rw [Function.update_noteq hneb]
      by_cases hila : i < (partners p e.1).length
      · have hnea : csr_offsets n E e.1 + i ≠ st.1 e.1 := by
          rw [hca]; omega
        rw [Function.update_noteq hnea, hrec e.1 i hila,
          getD_append_left2 _ _ i 0 hila]
      · have hieq : i = (partners p e.1).length := by omega
        subst hieq
        rw [show csr_offsets n E e.1 + (partners p e.1).length = st.1 e.1 from
          hca.symm, Function.update_same, getD_append_length2]
    · by_cases h2 : c = e.2
      · subst h2
        rw [hpb] at hi ⊢
        rw [List.length_append, List.length_singleton] at hi
        have hiE : i < (partners E e.2).length := by
          have h3 := hple e.2
          rw [hpb, List.length_append, List.length_singleton] at h3
          omega
        by_cases hilb : i < (partners p e.2).length
        · have hneb : csr_offsets n E e.2 + i ≠ st.1 e.2 := by
            rw [hcb]; omega
          have hnea : csr_offsets n E e.2 + i ≠ st.1 e.1 := by
            rw [hca]
            exact seg_disjoint n E hE e.2 e.1 i (partners p e.1).length hbn han
              (Ne.symm hne) hiE hla
          rw [Function.update_noteq hneb, Function.update_noteq hnea,
            hrec e.2 i hilb, getD_append_left2 _ _ i 0 hilb]
        · have hieq : i = (partners p e.2).length := by omega
          subst hieq
          rw [show csr_offsets n E e.2 + (partners p e.2).length = st.1 e.2 from
            hcb.symm, Function.update_same, getD_append_length2]
      · rw [hpo c h1 h2] at hi ⊢
        have hiE : i < (partners E c).length := by
          have h3 := hple c
          rw [hpo c h1 h2] at h3
          omega
        have hneb : csr_offsets n E c + i ≠ st.1 e.2 := by
          rw [hcb]
          exact seg_disjoint n E hE c e.2 i (partners p e.2).length hcn hbn h2
            hiE hlb
        have hnea : csr_offsets n E c + i ≠ st.1 e.1 := by
          rw [hca]
          exact seg_disjoint n E hE c e.1 i (partners p e.1).length hcn han h1
            hiE hla
        rw [Function.update_noteq hneb, Function.update_noteq hnea, hrec c i hi]

theorem fill_go (n : ℕ) (E : List (ℕ × ℕ))
    (hE : ∀ e ∈ E, e.1 < e.2 ∧ e.2 < n) :
    ∀ (rest p : List (ℕ × ℕ)) (st : (ℕ → ℕ) × (ℕ → ℕ)), E = p ++ rest →
      fillInv (csr_offsets n E) p st →
      fillInv (csr_offsets n E) E (rest.foldl fill_step st) := by
  intro rest
  induction rest with
  | nil =>
    intro p st hsp hinv
    rw [List.foldl_nil]
    have hEp : p = E := by rw [hsp, List.append_nil]
    rw [hEp] at hinv
    exact hinv
  | cons e rest2 ih =>
    intro p st hsp hinv
    rw [List.foldl_cons]
    exact ih (p ++ [e]) (fill_step st e) (by rw [hsp]; simp)
      (fill_step_inv n E hE p e rest2 hsp st hinv)

theorem fill_correct (n : ℕ) (E : List (ℕ × ℕ))
    (hE : ∀ e ∈ E, e.1 < e.2 ∧ e.2 < n) :
    fillInv (csr_offsets n E) E
      (E.foldl fill_step (csr_offsets n E, fun _ => 0)) := by
  refine fill_go n E hE E [] (csr_offsets n E, fun _ => 0) rfl ⟨?_, ?_⟩
  · intro c
    show csr_offsets n E c = csr_offsets n E c + (partners [] c).length
    rfl
  · intro c i hi
    simp [partners] at hi

theorem get_neighbors_eq (n : ℕ) (ci mvi : List ℕ) (cvo : List (ℕ × ℕ))
    (h : ∀ g ∈ ci, g < n) (c : ℕ) (hc : c < n) :
    get_neighbors (build_adjacency n ci mvi cvo) c =
      partners (final_edges ci mvi cvo) c := by
  have hE : ∀ e ∈ final_edges ci mvi cvo, e.1 < e.2 ∧ e.2 < n :=
    final_edges_bounds n ci mvi cvo h
  obtain ⟨hcur, hrec⟩ := fill_correct n (final_edges ci mvi cvo) hE
  have hlen : csr_offsets n (final_edges ci mvi cvo) (c + 1) -
      csr_offsets n (final_edges ci mvi cvo) c =
      (partners (final_edges ci mvi cvo) c).length := by
    rw [csr_offsets_seg n (final_edges ci mvi cvo) hE c hc]
    omega
  have hgn : get_neighbors (build_adjacency n ci mvi cvo) c =
      (List.range (csr_offsets n (final_edges ci mvi cvo) (c + 1) -
        csr_offsets n (final_edges ci mvi cvo) c)).map
        (fun i => ((final_edges ci mvi cvo).foldl fill_step
          (csr_offsets n (final_edges ci mvi cvo), fun _ => 0)).2
          (csr_offsets n (final_edges ci mvi cvo) c + i)) := rfl
  rw [hgn, hlen]
  apply List.ext_getElem
  · simp
  · intro i h1 h2
    simp only [List.getElem_map, List.getElem_range]
    rw [hrec c i h2]
    exact List.getD_eq_getElem _ _ h2

theorem get_neighbors_ge (n : ℕ) (ci mvi : List ℕ) (cvo : List (ℕ × ℕ))
    (h : ∀ g ∈ ci, g < n) (c : ℕ) (hc : n ≤ c) :
    get_neighbors (build_adjacency n ci mvi cvo) c = [] := by
  have hE : ∀ e ∈ final_edges ci mvi cvo, e.1 < e.2 ∧ e.2 < n :=
    final_edges_bounds n ci mvi cvo h
  have hz : csr_offsets n (final_edges ci mvi cvo) (c + 1) = 0 := by
    rw [csr_offsets_beyond n _ (c + 1) (by omega),
      degree_array_beyond n _ hE (c + 1) (by omega)]
  have hgn : get_neighbors (build_adjacency n ci mvi cvo) c =
      (List.range (csr_offsets n (final_edges ci mvi cvo) (c + 1) -
        csr_offsets n (final_edges ci mvi cvo) c)).map
        (fun i => ((final_edges ci mvi cvo).foldl fill_step
          (csr_offsets n (final_edges ci mvi cvo), fun _ => 0)).2
          (csr_offsets n (final_edges ci mvi cvo) c + i)) := rfl
  rw [hgn, hz]
  simp

theorem neighbors_symm (n : ℕ) (ci mvi : List ℕ) (cvo : List (ℕ × ℕ))
    (h : ∀ g ∈ ci, g < n) (a b : ℕ)
    (hb : b ∈ get_neighbors (build_adjacency n ci mvi cvo) a) :
    a ∈ get_neighbors (build_adjacency n ci mvi cvo) b := by
  have hE : ∀ e ∈ final_edges ci mvi cvo, e.1 < e.2 ∧ e.2 < n :=
    final_edges_bounds n ci mvi cvo h
  have hne : ∀ e ∈ final_edges ci mvi cvo, e.1 ≠ e.2 :=
    fun e he => (hE e he).1.ne
  by_cases han : a < n
  · rw [get_neighbors_eq n ci mvi cvo h a han] at hb
    have hm := (partners_mem _ hne a b).mp hb
    have hbn : b < n := by
      rcases hm with hm | hm
      · exact (hE _ hm).2
      · obtain ⟨h1, h2⟩ := hE _ hm
        simp only at h1 h2
        omega
    rw [get_neighbors_eq n ci mvi cvo h b hbn]
    apply (partners_mem _ hne b a).mpr
    tauto
  · rw [get_neighbors_ge n ci mvi cvo h a (by omega)] at hb
    simp at hb

theorem sorted_fst_mono (l : List (ℕ × ℕ)) (hs : List.Sorted entryLE l)
    (i j : ℕ) (hij : i ≤ j) (hj : j < l.length) :
    (l.getD i (0, 0)).1 ≤ (l.getD j (0, 0)).1 := by
  rcases Nat.eq_or_lt_of_le hij with heq | hlt
  · subst heq; exact le_refl _
  · have hi : i < l.length := lt_trans hlt hj
    rw [List.getD_eq_getElem _ _ hi, List.getD_eq_getElem _ _ hj]
    exact List.pairwise_iff_getElem.mp hs i j hi hj hlt

theorem run_path (R : ℕ → ℕ → Prop) (l : List (ℕ × ℕ))
    (hs : List.Sorted entryLE l)
    (hR : ∀ e ∈ consecutive_edges l, R e.1 e.2 ∧ R e.2 e.1) :
    ∀ (d k : ℕ), k + d < l.length →
      (l.getD k (0, 0)).1 = (l.getD (k + d) (0, 0)).1 →
      Relation.ReflTransGen R (l.getD k (0, 0)).2 (l.getD (k + d) (0, 0)).2 := by
  intro d
  induction d with
  | zero => intro k _ _; exact Relation.ReflTransGen.refl
  | succ d ih =>
    intro k hk hfst
    have hk1 : k + 1 < l.length := by omega
    have hfst1 : (l.getD k (0, 0)).1 = (l.getD (k + 1) (0, 0)).1 := by
      have h1 : (l.getD k (0, 0)).1 ≤ (l.getD (k + 1) (0, 0)).1 :=
        sorted_fst_mono l hs k (k + 1) (by omega) hk1
      have h2 : (l.getD (k + 1) (0, 0)).1 ≤ (l.getD (k + (d + 1)) (0, 0)).1 :=
        sorted_fst_mono l hs (k + 1) (k + (d + 1)) (by omega) hk
      omega
    have hstep : Relation.ReflTransGen R (l.getD k (0, 0)).2
        (l.getD (k + 1) (0, 0)).2 := by
      by_cases hsnd : (l.getD k (0, 0)).2 = (l.getD (k + 1) (0, 0)).2
      · rw [hsnd]
      · have hedge := consecutive_edges_of_adj l k hk1 hfst1 hsnd
        obtain ⟨hR1, hR2⟩ := hR _ hedge
        rcases le_total (l.getD k (0, 0)).2 (l.getD (k + 1) (0, 0)).2 with hle | hle
        · rw [min_eq_left hle, max_eq_right hle] at hR1
          exact Relation.ReflTransGen.single hR1
        · rw [min_eq_right hle, max_eq_left hle] at hR2
          exact Relation.ReflTransGen.single hR2
    have hrest : Relation.ReflTransGen R (l.getD (k + 1) (0, 0)).2
        (l.getD (k + 1 + d) (0, 0)).2 := by
      refine ih (k + 1) (by omega) ?_
      rw [← hfst1]
      have h5 : k + 1 + d = k + (d + 1) := by omega
      rw [h5]
      exact hfst
    have hidx : l.getD (k + (d + 1)) (0, 0) = l.getD (k + 1 + d) (0, 0) := by
      have h5 : k + (d + 1) = k + 1 + d := by omega
      rw [h5]
    rw [hidx]
    exact Relation.ReflTransGen.trans hstep hrest

theorem csr_step_shares (n : ℕ) (ci mvi : List ℕ) (cvo : List (ℕ × ℕ))
    (h : ∀ g ∈ ci, g < n) (x y : ℕ)
    (hy : y ∈ get_neighbors (build_adjacency n ci mvi cvo) x) :
    shares_vertex ci mvi cvo x y := by
  have hE : ∀ e ∈ final_edges ci mvi cvo, e.1 < e.2 ∧ e.2 < n :=
    final_edges_bounds n ci mvi cvo h
  have hne : ∀ e ∈ final_edges ci mvi cvo, e.1 ≠ e.2 := fun e he => (hE e he).1.ne
  by_cases hxn : x < n
  · rw [get_neighbors_eq n ci mvi cvo h x hxn] at hy
    have hm := (partners_mem _ hne x y).mp hy
    rcases hm with hm | hm
    · obtain ⟨hlt, v2, h1, h2⟩ := final_edges_shared ci mvi cvo _ hm
      exact ⟨hlt.ne, v2, h1, h2⟩
    · obtain ⟨hlt, v2, h1, h2⟩ := final_edges_shared ci mvi cvo _ hm
      exact ⟨Ne.symm hlt.ne, v2, h2, h1⟩
  · rw [get_neighbors_ge n ci mvi cvo h x (by omega)] at hy
    simp at hy

theorem shares_step_path (n : ℕ) (ci mvi : List ℕ) (cvo : List (ℕ × ℕ))
    (h : ∀ g ∈ ci, g < n) (x y : ℕ) (hsv : shares_vertex ci mvi cvo x y) :
    Relation.ReflTransGen
      (fun u w => w ∈ get_neighbors (build_adjacency n ci mvi cvo) u) x y := by
  obtain ⟨hnexy, v2, hvx, hvy⟩ := hsv
  have hsorted : List.Sorted entryLE (sorted_entries ci mvi cvo) :=
    List.sorted_insertionSort entryLE _
  have hvx2 : (v2, x) ∈ sorted_entries ci mvi cvo :=
    (List.mem_insertionSort entryLE).mpr hvx
  have hvy2 : (v2, y) ∈ sorted_entries ci mvi cvo :=
    (List.mem_insertionSort entryLE).mpr hvy
  obtain ⟨k1, hk1, he1⟩ := List.getElem_of_mem hvx2
  obtain ⟨k2, hk2, he2⟩ := List.getElem_of_mem hvy2
  have hg1 : (sorted_entries ci mvi cvo).getD k1 (0, 0) = (v2, x) := by
    rw [List.getD_eq_getElem _ _ hk1]; exact he1
  have hg2 : (sorted_entries ci mvi cvo).getD k2 (0, 0) = (v2, y) := by
    rw [List.getD_eq_getElem _ _ hk2]; exact he2
  have hR : ∀ e ∈ consecutive_edges (sorted_entries ci mvi cvo),
      (fun u w => w ∈ get_neighbors (build_adjacency n ci mvi cvo) u) e.1 e.2 ∧
      (fun u w => w ∈ get_neighbors (build_adjacency n ci mvi cvo) u) e.2 e.1 := by
    intro e he
    have heE : e ∈ final_edges ci mvi cvo := (final_edges_mem ci mvi cvo e).mpr he
    have hE : ∀ e2 ∈ final_edges ci mvi cvo, e2.1 < e2.2 ∧ e2.2 < n :=
      final_edges_bounds n ci mvi cvo h
    have hne2 : ∀ e2 ∈ final_edges ci mvi cvo, e2.1 ≠ e2.2 :=
      fun e2 he2b => (hE e2 he2b).1.ne
    obtain ⟨hlt, hbn⟩ := hE e heE
    have han : e.1 < n := lt_trans hlt hbn
    constructor
    · show e.2 ∈ get_neighbors (build_adjacency n ci mvi cvo) e.1
      rw [get_neighbors_eq n ci mvi cvo h e.1 han]
      exact (partners_mem _ hne2 e.1 e.2).mpr (Or.inl heE)
    · show e.1 ∈ get_neighbors (build_adjacency n ci mvi cvo) e.2
      rw [get_neighbors_eq n ci mvi cvo h e.2 hbn]
      exact (partners_mem _ hne2 e.2 e.1).mpr (Or.inr heE)
  rcases le_total k1 k2 with hk | hk
  · have hpath := run_path
      (fun u w => w ∈ get_neighbors (build_adjacency n ci mvi cvo) u)
      (sorted_entries ci mvi cvo) hsorted hR (k2 - k1) k1
      (by omega) (by
        have h5 : k1 + (k2 - k1) = k2 := by omega
        rw [h5, hg1, hg2])
    have h5 : k1 + (k2 - k1) = k2 := by omega
    rw [h5, hg1, hg2] at hpath
    exact hpath
  · have hpath := run_path
      (fun u w => w ∈ get_neighbors (build_adjacency n ci mvi cvo) u)
      (sorted_entries ci mvi cvo) hsorted hR (k1 - k2) k2
      (by omega) (by
        have h5 : k2 + (k1 - k2) = k1 := by omega
        rw [h5, hg2, hg1])
    have h5 : k2 + (k1 - k2) = k1 := by omega
    rw [h5, hg2, hg1] at hpath
    exact Relation.ReflTransGen.symmetric
      (fun _ _ hw => neighbors_symm n ci mvi cvo h _ _ hw) hpath

/-- C4: on a level whose cluster ids are all below `num_clusters`,
`build_adjacency` (1) keeps only canonically ordered `(min, max)` edges
after the consecutive-pair emission, sort and dedup, (2) produces a
symmetric CSR graph: whenever `b` is listed among the neighbors of `a`,
`a` is listed among the neighbors of `b`, and (3) the reflexive-transitive
closure of the CSR neighbor relation coincides with the
reflexive-transitive closure of the full all-pairs relation in which two
distinct clusters are adjacent iff they share a vertex id — the connected
components are identical. -/
theorem C4_adjacency_symmetric_components (n : ℕ) (ci mvi : List ℕ)
    (cvo : List (ℕ × ℕ)) (h : ∀ g ∈ ci, g < n) :
    (∀ e ∈ final_edges ci mvi cvo, e.1 < e.2) ∧
    (∀ a b : ℕ, b ∈ get_neighbors (build_adjacency n ci mvi cvo) a →
      a ∈ get_neighbors (build_adjacency n ci mvi cvo) b) ∧
    (∀ a b : ℕ,
      Relation.ReflTransGen
        (fun u w => w ∈ get_neighbors (build_adjacency n ci mvi cvo) u) a b ↔
      Relation.ReflTransGen (shares_vertex ci mvi cvo) a b) := by
  refine ⟨?_, ?_, ?_⟩
  · intro e he
    exact (final_edges_bounds n ci mvi cvo h e he).1
  · exact fun a b => neighbors_symm n ci mvi cvo h a b
  · intro a b
    constructor
    · exact Relation.ReflTransGen.mono
        (fun u w hw => csr_step_shares n ci mvi cvo h u w hw)
    · intro hrtg
      induction hrtg with
      | refl => exact Relation.ReflTransGen.refl
      | tail h1 h2 ih =>
        exact Relation.ReflTransGen.trans ih
          (shares_step_path n ci mvi cvo h _ _ h2)

/-- C4 witness: the star level (9 clusters, cluster 0 sharing one vertex
with each of 1..8) satisfies the hypothesis, and the theorem applies. -/
theorem C4_witness :
    (∀ g ∈ star_indices, g < 9) ∧
    ((∀ e ∈ final_edges star_indices star_v_indices star_cvo, e.1 < e.2) ∧
      (∀ a b : ℕ,
        b ∈ get_neighbors
          (build_adjacency 9 star_indices star_v_indices star_cvo) a →
        a ∈ get_neighbors
          (build_adjacency 9 star_indices star_v_indices star_cvo) b) ∧
      (∀ a b : ℕ,
        Relation.ReflTransGen
          (fun u w => w ∈ get_neighbors
            (build_adjacency 9 star_indices star_v_indices star_cvo) u) a b ↔
        Relation.ReflTransGen
          (shares_vertex star_indices star_v_indices star_cvo) a b)) :=
  ⟨by decide, C4_adjacency_symmetric_components 9 star_indices star_v_indices
    star_cvo (by decide)⟩

end Adaptrix
